import Mathlib

/-!
Verification of the rename-resolve-rewrite pipeline of `export_fix.py`
(notion-backup-enhancer).

The Python source is shallowly embedded: strings are `List Char`, paths are
slash-separated `List Char` values (POSIX `os.path` semantics, the setting in
which the pipeline manipulates zip-style paths), timestamps are abstract `Nat`
values, and the mutable per-run collision registry becomes an explicit state
value threaded through the functions.  Character classes (`\s`, `\w`) are
modelled on the character sets the pipeline actually traffics in; the
supplementary Unicode whitespace of Python's `re` is included where it is
cheap.  `urllib.parse.quote`/`unquote` are modelled for single-byte (ASCII)
escapes, which covers every value this development evaluates them on.
-/

namespace ExportFix

/-- Shorthand: the character list of a string literal. -/
def cs (s : String) : List Char := s.toList

/-- Python `\s` on `str` (whitespace characters, including the common
Unicode whitespace code points). -/
def isPySpace (c : Char) : Bool :=
  c = ' ' || c = '\t' || c = '\n' || c = '\x0b' || c = '\x0c' || c = '\r' ||
  c = '\x1c' || c = '\x1d' || c = '\x1e' || c = '\x1f' || c = '\u0085' ||
  c = '\u00a0' || c = '\u1680' || ('\u2000' ≤ c && c ≤ '\u200a') ||
  c = '\u2028' || c = '\u2029' || c = '\u202f' || c = '\u205f' || c = '\u3000'

/-- The character class `[0-9a-f]` under `re.IGNORECASE`. -/
def isHexDig (c : Char) : Bool :=
  ('0' ≤ c && c ≤ '9') || ('a' ≤ c && c ≤ 'f') || ('A' ≤ c && c ≤ 'F')

/-- `INVALID_FILENAME_CHARS = re.compile(r'[\\/:*?"<>|]')`. -/
def invalidFileChar (c : Char) : Bool :=
  c = '\\' || c = '/' || c = ':' || c = '*' || c = '?' || c = '"' ||
  c = '<' || c = '>' || c = '|'

/-- The URL character class of `MD_LINK_OR_IMAGE_RE`:
`[\w\d\-._~:/?=#%\]\[@!$&'\(\)*+,;]`.  `\w` is modelled on ASCII; the
pattern is compiled without `re.ASCII`, so the real `\w` additionally
accepts non-ASCII word characters.  On ASCII characters this class agrees
with the real one exactly, so theorems may use `linkChar c = true`
unconditionally (ASCII word characters are a subset of `\w`), while a
theorem that relies on a character being *outside* the real class requires
that character to be ASCII. -/
def linkChar (c : Char) : Bool :=
  c.isAlphanum || c = '_' || c = '-' || c = '.' || c = '~' ||
  c = ':' || c = '/' || c = '?' || c = '=' || c = '#' || c = '%' ||
  c = ']' || c = '[' || c = '@' || c = '!' || c = '$' || c = '&' ||
  c = '\'' || c = '(' || c = ')' || c = '*' || c = '+' || c = ',' || c = ';'

/-- Strip characters satisfying `f` from both ends (Python `str.strip`). -/
def dropEnds (f : Char → Bool) (l : List Char) : List Char :=
  ((l.dropWhile f).reverse.dropWhile f).reverse

/-- Python `str.strip()` (no arguments: whitespace). -/
def stripWs (l : List Char) : List Char := dropEnds isPySpace l

/-- `INVALID_FILENAME_CHARS.sub(" ", name)`: each banned character becomes one
space. -/
def replaceInvalid (l : List Char) : List Char :=
  l.map (fun c => if invalidFileChar c then ' ' else c)

/-- `if len(name) > 200: name = name[:200]`. -/
def truncate200 (l : List Char) : List Char :=
  if 200 < l.length then l.take 200 else l

/-- Helper for `re.sub(r"\s{2,}", " ", name)`: each maximal run of two or
more whitespace characters becomes a single space.  Fuel-indexed so that the
definition is structural (the fuel is the length of the list). -/
def collapseWsAux : Nat → List Char → List Char
  | 0, l => l
  | _ + 1, [] => []
  | fuel + 1, c :: rest =>
    if isPySpace c && (match rest.head? with | some d => isPySpace d | none => false) then
      ' ' :: collapseWsAux fuel (rest.dropWhile isPySpace)
    else
      c :: collapseWsAux fuel rest

/-- `re.sub(r"\s{2,}", " ", name)`. -/
def collapseWs (l : List Char) : List Char := collapseWsAux l.length l

/-- `NotionExportRenamer._sanitize_name`: replace invalid filename characters
by spaces, strip, truncate to 200 characters when longer, then collapse
whitespace runs (in that order, exactly as the Python statements execute). -/
def sanitizeName (name : List Char) : List Char :=
  let n1 := stripWs (replaceInvalid name)
  let n2 := truncate200 n1
  collapseWs n2

/-- Decimal digit character (`str(i)` building block). -/
def digitCh (n : Nat) : Char := Char.ofNat (48 + n)

/-- Decimal rendering of a natural number, fuel-indexed for structural
recursion; `natRepr` supplies sufficient fuel. -/
def natReprAux : Nat → Nat → List Char
  | 0, _ => []
  | fuel + 1, n =>
    if n < 10 then [digitCh n]
    else natReprAux fuel (n / 10) ++ [digitCh (n % 10)]

/-- Python `str(i)` for a natural number. -/
def natRepr (n : Nat) : List Char := natReprAux (n + 1) n

/-- Value of a decimal digit string (used to invert `natRepr`). -/
def digitsVal (l : List Char) : Nat :=
  l.foldl (fun acc c => 10 * acc + (c.toNat - 48)) 0

theorem digitsVal_append_digit (l : List Char) (c : Char) :
    digitsVal (l ++ [c]) = 10 * digitsVal l + (c.toNat - 48) := by
  simp [digitsVal, List.foldl_append]

theorem digitCh_toNat (n : Nat) (h : n < 10) : (digitCh n).toNat = 48 + n := by
  interval_cases n <;> decide

theorem natReprAux_succ_ge (fuel n : Nat) (h : ¬ n < 10) :
    natReprAux (fuel + 1) n = natReprAux fuel (n / 10) ++ [digitCh (n % 10)] := by
  rw [natReprAux]
  simp [h]

theorem natReprAux_fuel_val {fuel n : Nat} (h : n ≤ fuel) :
    digitsVal (natReprAux (fuel + 1) n) = n := by
  induction fuel using Nat.strong_induction_on generalizing n with
  | _ fuel ih =>
    by_cases hn : n < 10
    · simp [natReprAux, hn, digitsVal, digitCh_toNat n hn]
    · have h10 : 10 ≤ n := Nat.le_of_not_lt hn
      have hfuel : 1 ≤ fuel := by omega
      obtain ⟨f, rfl⟩ : ∃ f, fuel = f + 1 := ⟨fuel - 1, by omega⟩
      have hdiv : n / 10 ≤ f := by
        have : n / 10 < n := Nat.div_lt_self (by omega) (by omega)
        omega
      have hv := ih f (by omega) hdiv
      rw [natReprAux_succ_ge _ _ hn, digitsVal_append_digit, hv,
        digitCh_toNat _ (Nat.mod_lt _ (by omega))]
      omega

theorem digitsVal_natRepr (n : Nat) : digitsVal (natRepr n) = n :=
  natReprAux_fuel_val (Nat.le_refl n)

theorem natRepr_injective : Function.Injective natRepr := by
  intro a b h
  have := digitsVal_natRepr a
  rw [h, digitsVal_natRepr] at this
  omega

/-- Index of the last occurrence of `c` in `p` (Python `str.rfind`, as
`Option` instead of `-1`). -/
def lastIdxAux (c : Char) : List Char → Nat → Option Nat
  | [], _ => none
  | x :: r, i =>
    match lastIdxAux c r (i + 1) with
    | some j => some j
    | none => if x = c then some i else none

def lastIdx (p : List Char) (c : Char) : Option Nat := lastIdxAux c p 0

/-- Python `p.split("/")` (keeps empty fields). -/
def splitSlashAux : List Char → List Char → List (List Char)
  | [], cur => [cur.reverse]
  | c :: r, cur =>
    if c = '/' then cur.reverse :: splitSlashAux r []
    else splitSlashAux r (c :: cur)

def splitSlash (p : List Char) : List (List Char) := splitSlashAux p []

/-- `re.split(r"[\\/]", path)`: split on every slash or backslash. -/
def splitAnySlashAux : List Char → List Char → List (List Char)
  | [], cur => [cur.reverse]
  | c :: r, cur =>
    if c = '/' || c = '\\' then cur.reverse :: splitAnySlashAux r []
    else splitAnySlashAux r (c :: cur)

def splitAnySlash (p : List Char) : List (List Char) := splitAnySlashAux p []

/-- Strip all trailing `/` characters (Python `str.rstrip("/")`). -/
def rstripSlashAll (l : List Char) : List Char :=
  (l.reverse.dropWhile (fun c => c = '/')).reverse

/-- A `.`-or-`/` character (the strip set of `strip("./")` / `lstrip("./")`). -/
def dotSlash (c : Char) : Bool := c = '.' || c = '/'

/-- Python `str.lstrip("./")`. -/
def lstripDotSlash (l : List Char) : List Char := l.dropWhile dotSlash

/-- Python `str.strip("./")`. -/
def stripDotSlash (l : List Char) : List Char := dropEnds dotSlash l

/-- Helper for `re.sub(r"[\\]+", "/", p)`: every maximal run of backslashes
becomes a single forward slash (fuel-indexed structural recursion). -/
def backRunsAux : Nat → List Char → List Char
  | 0, l => l
  | _ + 1, [] => []
  | fuel + 1, c :: rest =>
    if c = '\\' then '/' :: backRunsAux fuel (rest.dropWhile (fun d => d = '\\'))
    else c :: backRunsAux fuel rest

/-- `re.sub(r"[\\]+", "/", p)`. -/
def normBackslashRuns (l : List Char) : List Char := backRunsAux l.length l

/-- `re.sub(r"\\", "/", p)`: every single backslash becomes a slash. -/
def backslashToSlash (l : List Char) : List Char :=
  l.map (fun c => if c = '\\' then '/' else c)

/-- `_normalize_zip_path`: `re.sub(r"[\\]+", "/", p).lstrip("./")`. -/
def normZipPath (p : List Char) : List Char :=
  lstripDotSlash (normBackslashRuns p)

/-- `posixpath.split`: split off the last path component; the head keeps no
trailing slashes unless it consists only of slashes. -/
def osSplit (p : List Char) : List Char × List Char :=
  match lastIdx p '/' with
  | none => ([], p)
  | some k =>
    let head := p.take (k + 1)
    let tail := p.drop (k + 1)
    (if head ≠ [] && !head.all (fun c => c = '/') then rstripSlashAll head else head,
     tail)

/-- `posixpath.dirname`. -/
def osDirname (p : List Char) : List Char := (osSplit p).1

/-- `posixpath.join` for two components. -/
def joinTwo (a b : List Char) : List Char :=
  if b.head? = some '/' then b
  else if a = [] || a.getLast? = some '/' then a ++ b
  else a ++ '/' :: b

/-- `os.path.join(*parts)` for a non-empty argument list. -/
def joinList : List (List Char) → List Char
  | [] => []
  | h :: t => t.foldl joinTwo h

/-- `genericpath._splitext` (POSIX): split a trailing extension at the last
dot, unless every character between the last slash and that dot is a dot. -/
def splitext (p : List Char) : List Char × List Char :=
  match lastIdx p '.' with
  | none => (p, [])
  | some d =>
    let fi : Nat := match lastIdx p '/' with | none => 0 | some k => k + 1
    let sepOk : Bool := match lastIdx p '/' with | none => true | some k => k < d
    if sepOk && ((p.drop fi).take (d - fi)).any (fun c => c ≠ '.') then
      (p.take d, p.drop d)
    else (p, [])

/-- Number of leading slashes distinguished by `posixpath.normpath`
(0, 1, or exactly 2; three or more count as 1). -/
def leadSlashes (p : List Char) : Nat :=
  match p with
  | '/' :: '/' :: '/' :: _ => 1
  | '/' :: '/' :: _ => 2
  | '/' :: _ => 1
  | _ => 0

/-- One step of `posixpath.normpath`'s component loop, over the reversed
accumulator of kept components. -/
def npStep (initSl : Bool) (acc : List (List Char)) (comp : List Char) :
    List (List Char) :=
  if comp = [] || comp = ['.'] then acc
  else if comp ≠ cs ".." || (!initSl && acc = []) ||
      (match acc with | h :: _ => h = cs ".." | [] => false) then
    comp :: acc
  else
    match acc with
    | _ :: t => t
    | [] => []

/-- `posixpath.normpath`. -/
def normpath (p : List Char) : List Char :=
  if p = [] then ['.']
  else
    let sl := leadSlashes p
    let comps := splitSlash p
    let kept := (comps.foldl (npStep (sl ≠ 0)) []).reverse
    let body := List.intercalate ['/'] kept
    let out := List.replicate sl '/' ++ body
    if out = [] then ['.'] else out

/-- `posixpath.abspath` with the working directory fixed at the filesystem
root; the paths this development resolves are tree-relative, for which the
relative-path computation below does not depend on the working directory. -/
def abspathRoot (p : List Char) : List Char := normpath (joinTwo ['/'] p)

/-- Length of the longest common prefix of two component lists
(`os.path.commonprefix` on lists). -/
def commonLen : List (List Char) → List (List Char) → Nat
  | a :: as, b :: bs => if a = b then commonLen as bs + 1 else 0
  | _, _ => 0

/-- `posixpath.relpath(path, start)`. -/
def relpath (path start : List Char) : List Char :=
  let pl := (splitSlash (abspathRoot path)).filter (fun x => x ≠ [])
  let sl := (splitSlash (abspathRoot start)).filter (fun x => x ≠ [])
  let i := commonLen sl pl
  let relList := List.replicate (sl.length - i) (cs "..") ++ pl.drop i
  if relList = [] then ['.'] else List.intercalate ['/'] relList

/-- `md_final_dir or "."`. -/
def dirOrDot (d : List Char) : List Char := if d = [] then ['.'] else d

/-- Python `str.lower()` (ASCII case folding; the extensions compared by the
pipeline are ASCII). -/
def lowerList (l : List Char) : List Char := l.map Char.toLower

/-- `p.lower().endswith(suf)`. -/
def endsWithLower (suf p : List Char) : Bool := suf.isSuffixOf (lowerList p)

/-- Does `ID_SUFFIX_RE = re.compile(r"(.+?)\s([0-9a-f]{32})$", re.IGNORECASE)`
match `name` with the first group starting at `s` and of length `L`?
`.` excludes newlines, `\s` is any whitespace, and `$` accepts the end of the
string or a position just before one final newline. -/
def tryIdMatch (name : List Char) (s L : Nat) : Bool :=
  let t := (name.drop s).take L
  let rest := (name.drop s).drop L
  t.length = L && t.all (fun c => c ≠ '\n') &&
  match rest with
  | [] => false
  | c :: r =>
    isPySpace c && (r.take 32).length = 32 && (r.take 32).all isHexDig &&
    (r.drop 32 = [] || r.drop 32 = ['\n'])

/-- Candidate `(start, groupLength)` pairs in the order the regex engine
tries them: scan position ascending (leftmost), then lazy group length
ascending. -/
def idCandidates (n : Nat) : List (Nat × Nat) :=
  (List.range (n + 1)).flatMap
    (fun s => (List.range (n + 1)).map (fun l => (s, l + 1)))

/-- `ID_SUFFIX_RE.search(name)`, returning `m.group(1)`. -/
def idSearch (name : List Char) : Option (List Char) :=
  match (idCandidates name.length).find? (fun p => tryIdMatch name p.1 p.2) with
  | some (s, L) => some ((name.drop s).take L)
  | none => none

/-- `RenameResult` of the source: the rewritten basename plus optional
enrichment timestamps. -/
structure RenameResult where
  newName : List Char
  createdTime : Option Nat
  lastEditedTime : Option Nat
  deriving DecidableEq, Repr

/-- Outcome of `NotionExportRenamer._maybe_enrich_from_notion` for one
basename: optional sanitized title, created/last-edited timestamps, and an
optional single-emoji icon glyph.  The pipeline treats the provider as an
abstract fallible lookup; runs without an API token use `offlineEnrich`. -/
def EnrichFn : Type :=
  List Char → Option (List Char) × Option Nat × Option Nat × Option (List Char)

/-- `notion_api is None`: every enrichment lookup yields nothing. -/
def offlineEnrich : EnrichFn := fun _ => (none, none, none, none)

/-- `NotionExportRenamer._rewrite_single_basename` (the memoisation cache of
the source caches a pure computation and is dropped).  `moveMd` is the
`move_md_to_folder` option and `dirs` the snapshot of source directory paths
(`self._source_dirs`). -/
def rewriteSingleBasename (enrich : EnrichFn) (moveMd : Bool)
    (dirs : List (List Char)) (pathToRename : List Char) : RenameResult :=
  let path := (osSplit pathToRename).1
  let name := (osSplit pathToRename).2
  let stem := (splitext name).1
  let ext := (splitext name).2
  let idm := idSearch stem
  let enriched :
      List Char × Option Nat × Option Nat :=
    match idm with
    | some basePart =>
      let r := enrich stem
      let title := r.1
      let ct := r.2.1
      let mt := r.2.2.1
      let emo := r.2.2.2
      -- `if title:` — an empty sanitized title is falsy and is ignored
      let n1 := match title with
        | some t => if t ≠ [] then t else basePart
        | none => basePart
      let n2 := match emo with
        | some e => if e ≠ [] then e ++ ' ' :: n1 else n1
        | none => n1
      (n2, ct, mt)
    | none => (stem, none, none)
  let newStem0 := enriched.1
  -- move .md into a same-named folder as `!index` when such a source dir exists
  let newStem1 :=
    if lowerList ext = cs ".md" && moveMd then
      let relParentNorm := stripDotSlash (normBackslashRuns path)
      let candidateDirRel :=
        List.intercalate ['/'] (([relParentNorm, stem]).filter (fun x => x ≠ []))
      if candidateDirRel ∈ dirs then joinTwo newStem0 (cs "!index") else newStem0
    else newStem0
  let newStem2 := sanitizeName newStem1
  { newName := newStem2 ++ ext
    createdTime := enriched.2.1
    lastEditedTime := enriched.2.2 }

/-- `NotionExportRenamer.rename_with_notion`. -/
def renameBase (enrich : EnrichFn) (moveMd : Bool) (dirs : List (List Char))
    (p : List Char) : List Char :=
  (rewriteSingleBasename enrich moveMd dirs p).newName

/-- `NotionExportRenamer.rename_path_with_notion`: rename every prefix of the
path, then rejoin the renamed basenames. -/
def renamePath (enrich : EnrichFn) (moveMd : Bool) (dirs : List (List Char))
    (p : List Char) : List Char :=
  let parts := splitAnySlash p
  let pres := (List.range parts.length).map (fun k => joinList (parts.take (k + 1)))
  joinList (pres.map (renameBase enrich moveMd dirs))

/-- `NotionExportRenamer.rename_path_and_times_with_notion`. -/
def renamePathAndTimes (enrich : EnrichFn) (moveMd : Bool)
    (dirs : List (List Char)) (p : List Char) :
    List Char × Option Nat × Option Nat :=
  let newDir := renamePath enrich moveMd dirs (osDirname p)
  let r := rewriteSingleBasename enrich moveMd dirs p
  (joinTwo newDir r.newName, r.createdTime, r.lastEditedTime)

/-- The collision registry: one set of claimed names per normalized parent
directory (`registry: Dict[str, set[str]]`).  Modelled as an association
list; `regGet` returns `[]` for an absent key (the `setdefault`). -/
def RState : Type := List (List Char × List (List Char))

def emptyReg : RState := []

def regGet (st : RState) (p : List Char) : List (List Char) :=
  match st with
  | [] => []
  | (k, v) :: t => if k = p then v else regGet t p

def regSet (st : RState) (p : List Char) (v : List (List Char)) : RState :=
  match st with
  | [] => [(p, v)]
  | (k, w) :: t => if k = p then (k, v) :: t else (k, w) :: regSet t p v

/-- `f"{name_no_ext} ({i}){ext}"`. -/
def candName (stem ext : List Char) (i : Nat) : List Char :=
  stem ++ ' ' :: '(' :: (natRepr i ++ ')' :: ext)

/-- The `while True` loop of `reserve`: try `candName stem ext i` for
`i = start, start+1, ...` until a candidate is neither in `used` nor blocked
by the caller-supplied existing-name list; fuel-indexed (the callers pass
enough fuel for the loop to succeed, see `findFree_spec`). -/
def findFree (used exn : List (List Char)) (stem ext : List Char) :
    Nat → Nat → List Char
  | 0, i => candName stem ext i
  | fuel + 1, i =>
    let c := candName stem ext i
    if c ∈ used || c ∈ exn then findFree used exn stem ext fuel (i + 1) else c

/-- The `reserve` closures of `_two_pass_tree_to_zip`, `_two_pass_tree_to_dir`
and `_two_pass_zip_to_zip`.  `normP` is the parent normalization of the
variant (`_normalize_zip_path(...).rstrip("/")` for the zip variants,
`re.sub(r"[\\]+","/",...).strip("./")` for the directory variant) and
`ex` the per-parent list of names already present at the destination
(`os.path.exists` checks; constantly `[]` for the zip variants). -/
def reserve (normP : List Char → List Char) (ex : List Char → List (List Char))
    (st : RState) (parent filename : List Char) : List Char × RState :=
  let pn := normP parent
  let used := regGet st pn
  let exn := ex pn
  if filename ∉ used ∧ filename ∉ exn then
    (filename, regSet st pn (used ++ [filename]))
  else
    let stem := (splitext filename).1
    let ext := (splitext filename).2
    let c := findFree used exn stem ext (used.length + exn.length + 1) 1
    (c, regSet st pn (used ++ [c]))

/-- The zip variants' parent normalization. -/
def zipParentNorm (p : List Char) : List Char := rstripSlashAll (normZipPath p)

/-- The directory variant's parent normalization. -/
def dirParentNorm (p : List Char) : List Char :=
  stripDotSlash (normBackslashRuns p)

/-- The no-destination-oracle of the zip variants. -/
def noExisting : List Char → List (List Char) := fun _ => []

/-- Pass 2 of the pipeline: fold `reserve` over the proposed paths in
enumeration order; each output entry records the original path, the raw
parent of the proposed path and the assigned final segment name
(`final_map[rel] = os.path.join(parent, reserve(parent, fname))`). -/
def resolveAll (normP : List Char → List Char)
    (ex : List Char → List (List Char)) (st : RState) :
    List (List Char × List Char) →
      List (List Char × List Char × List Char) × RState
  | [] => ([], st)
  | (orig, prop) :: rest =>
    let parent := (osSplit prop).1
    let fname := (osSplit prop).2
    let r := reserve normP ex st parent fname
    let out := resolveAll normP ex r.2 rest
    ((orig, parent, r.1) :: out.1, out.2)

/-- The final mapping entries produced by pass 2 (original path to final
path). -/
def finalMapOf (res : List (List Char × List Char × List Char)) :
    List (List Char × List Char) :=
  res.map (fun e => (e.1, joinTwo e.2.1 e.2.2))

/-- Association-list lookup used for `final_map` membership tests. -/
def lookupFm (fm : List (List Char × List Char)) (k : List Char) :
    Option (List Char) :=
  match fm with
  | [] => none
  | (a, b) :: t => if a = k then some b else lookupFm t k

/-- Relative path from the final directory of `mdFinalPath` to
`targetFinal`, lines 446-450 of the source:
`rel = os.path.relpath(target_final, md_final_dir or "."); re.sub(r"[\\]+","/",rel)`. -/
def relFromMdDir (mdFinalPath targetFinal : List Char) : List Char :=
  normBackslashRuns (relpath targetFinal (dirOrDot (osDirname mdFinalPath)))

/-- Lines 436-444 of `map_path` (zip variant): resolve the target's final
path, synthesizing and reserving a name when the target is absent from
`final_map` (the synthesized entry is *not* added to `final_map`; only the
registry changes). -/
def mapTargetFinal (enrich : EnrichFn) (moveMd : Bool) (dirs : List (List Char))
    (st : RState) (fm : List (List Char × List Char))
    (relPathInMd mdFileRel : List Char) : List Char × RState :=
  let targetAbsRel := normpath (joinTwo (osDirname mdFileRel) relPathInMd)
  let tNorm := normZipPath targetAbsRel
  match lookupFm fm tNorm with
  | some tf => (normZipPath tf, st)
  | none =>
    let prop := (renamePathAndTimes enrich moveMd dirs tNorm).1
    let parent := (osSplit prop).1
    let fname := (osSplit prop).2
    let r := reserve zipParentNorm noExisting st parent fname
    (normZipPath (joinTwo parent r.1), r.2)

/-- `map_path(rel_path_in_md, md_file_rel)` of `_two_pass_tree_to_zip`.
The source indexes `final_map[md_file_rel]` directly (every markdown file
processed by pass 3 is in the mapping); an absent key is given the empty
path here, and every theorem about `mapPath` carries the mapping
hypothesis. -/
def mapPath (enrich : EnrichFn) (moveMd : Bool) (dirs : List (List Char))
    (st : RState) (fm : List (List Char × List Char))
    (relPathInMd mdFileRel : List Char) : List Char × RState :=
  let t := mapTargetFinal enrich moveMd dirs st fm relPathInMd mdFileRel
  let mdFinalPath := normZipPath ((lookupFm fm mdFileRel).getD [])
  (relFromMdDir mdFinalPath t.1, t.2)

/-- Lazy scan of the URL group `([...]+?)` followed by `\)`: the first
position `j ≥ 1` closing the group with a literal `)`, all previous
characters lying in the URL class. -/
def groupScan : List Char → Nat → Option Nat
  | [], _ => none
  | c :: rest, j =>
    if j ≥ 1 && c = ')' then some j
    else if linkChar c then groupScan rest (j + 1)
    else none

/-- Lazy scan of the label `.+?` followed by `\](`...`)`: at each position
with at least one label character consumed, a `](` continuation is tried
first (lazy); if its group scan fails the `]` is consumed as a label
character and the scan continues.  Newlines stop the scan (`.` does not
match them). -/
def labelGroupScan : List Char → Nat → Option (Nat × Nat)
  | [], _ => none
  | c :: rest, j =>
    if c = '\n' then none
    else if j ≥ 1 && c = ']' && rest.head? = some '(' then
      match groupScan rest.tail 0 with
      | some g => some (j, g)
      | none => labelGroupScan rest (j + 1)
    else labelGroupScan rest (j + 1)

/-- Attempt to match `MD_LINK_OR_IMAGE_RE` at the start of `md`:
`!?\[` then label and group scans.  Returns
(length of the `!?\[` part, label length, group length). -/
def matchAt : List Char → Option (Nat × Nat × Nat)
  | '!' :: '[' :: rest => (labelGroupScan rest 0).map (fun p => (2, p.1, p.2))
  | '[' :: rest => (labelGroupScan rest 0).map (fun p => (1, p.1, p.2))
  | _ => none

/-- Scan for the leftmost match from offset `s` (fuel-indexed on the suffix
length).  Returns the absolute span `(m.start(1), m.end(1))` of group 1. -/
def searchLinkAux : Nat → List Char → Nat → Option (Nat × Nat)
  | 0, _, _ => none
  | _ + 1, [], _ => none
  | fuel + 1, md, s =>
    match matchAt md with
    | some (pre, L, G) => some (s + pre + L + 2, s + pre + L + 2 + G)
    | none => searchLinkAux fuel md.tail (s + 1)

/-- `MD_LINK_OR_IMAGE_RE.search(new_md, pos=search_start)`. -/
def searchFrom (md : List Char) (pos : Nat) : Option (Nat × Nat) :=
  searchLinkAux ((md.drop pos).length + 1) (md.drop pos) pos

/-- Does `pat` occur as a contiguous subsequence of the list? -/
def hasInfix (pat : List Char) : List Char → Bool
  | [] => pat.isPrefixOf []
  | c :: r => pat.isPrefixOf (c :: r) || hasInfix pat r

/-- `re.search(":/", url)` as a Boolean. -/
def hasColonSlash (url : List Char) : Bool := hasInfix (cs ":/") url

/-- Hex digit value for `%XX` decoding. -/
def hexVal (c : Char) : Option Nat :=
  if '0' ≤ c && c ≤ '9' then some (c.toNat - 48)
  else if 'a' ≤ c && c ≤ 'f' then some (c.toNat - 87)
  else if 'A' ≤ c && c ≤ 'F' then some (c.toNat - 55)
  else none

/-- `urllib.parse.unquote` for single-byte escapes (a `%XX` with `XX ≥ 0x80`
starts a UTF-8 multibyte sequence in Python; the pipeline inputs this
development evaluates are ASCII). -/
def unquoteA : List Char → List Char
  | '%' :: a :: b :: rest =>
    match hexVal a, hexVal b with
    | some x, some y => Char.ofNat (16 * x + y) :: unquoteA rest
    | _, _ => '%' :: unquoteA (a :: b :: rest)
  | c :: rest => c :: unquoteA rest
  | [] => []

/-- Characters `urllib.parse.quote` leaves unescaped with the default
`safe='/'`. -/
def quoteSafe (c : Char) : Bool :=
  c.isAlphanum || c = '_' || c = '.' || c = '-' || c = '~' || c = '/'

/-- Uppercase hex digit. -/
def hexDigU (n : Nat) : Char :=
  if n < 10 then Char.ofNat (48 + n) else Char.ofNat (55 + n)

/-- `urllib.parse.quote(s)` (single-byte escapes; see `unquoteA`). -/
def quoteA : List Char → List Char
  | [] => []
  | c :: r =>
    if quoteSafe c then c :: quoteA r
    else '%' :: hexDigU (c.toNat / 16) :: hexDigU (c.toNat % 16) :: quoteA r

/-- The `while True` link-rewriting loop of the inner `rewrite` closures
(lines 468-482 of the source), fuel-indexed: every iteration strictly
shrinks `md.length - pos`, so `md.length + 1` initial fuel always suffices.
`mpF` is the enclosing `map_path` closure (state-threaded). -/
def rewriteLinksAux (mpF : RState → List Char → List Char × RState) :
    Nat → RState → List Char → Nat → List Char × RState
  | 0, st, md, _ => (md, st)
  | fuel + 1, st, md, pos =>
    match searchFrom md pos with
    | none => (md, st)
    | some (gs, ge) =>
      let url := (md.drop gs).take (ge - gs)
      if hasColonSlash url then
        rewriteLinksAux mpF fuel st md ge
      else
        let relTarget := unquoteA url
        let r := mpF st relTarget
        let newRel := quoteA (backslashToSlash r.1)
        let md' := md.take gs ++ newRel ++ md.drop ge
        rewriteLinksAux mpF fuel r.2 md' (gs + newRel.length)

/-- `"\n".join(lines[1:])` after `lines = md.split("\n")`. -/
def dropFirstLine (md : List Char) : List Char :=
  match md.splitOn '\n'  with
  | [] => md
  | _ :: t => List.intercalate ['\n'] t

/-- The inner `rewrite` closure of the pipelines: optional first-line
removal, then the link-rewriting loop when path rewriting is enabled. -/
def rewriteMdText (enrich : EnrichFn) (moveMd : Bool) (dirs : List (List Char))
    (st : RState) (fm : List (List Char × List Char))
    (removeTopH1 rewritePaths : Bool) (mdFileRel content : List Char) :
    List Char × RState :=
  let c1 := if removeTopH1 then dropFirstLine content else content
  if rewritePaths then
    rewriteLinksAux (fun s t => mapPath enrich moveMd dirs s fm t mdFileRel)
      (c1.length + 1) st c1 0
  else (c1, st)

/-- Pass 1 followed by pass 2 of `_two_pass_tree_to_zip`: propose a renamed
path for every enumerated entry, then resolve collisions in enumeration
order.  Returns the resolved entries and the registry state pass 3 starts
from. -/
def twoPassResolve (enrich : EnrichFn) (moveMd : Bool)
    (dirs : List (List Char)) (entries : List (List Char)) :
    List (List Char × List Char × List Char) × RState :=
  resolveAll zipParentNorm noExisting emptyReg
    (entries.map (fun e => (e, (renamePathAndTimes enrich moveMd dirs e).1)))

/-- The `final_map` (original path to final path) of `_two_pass_tree_to_zip`. -/
def twoPassFinalMap (enrich : EnrichFn) (moveMd : Bool)
    (dirs : List (List Char)) (entries : List (List Char)) :
    List (List Char × List Char) :=
  finalMapOf (twoPassResolve enrich moveMd dirs entries).1

/-- Pass 3 markdown rewriting of one file of `_two_pass_tree_to_zip`, run
against the completed mapping and registry. -/
def twoPassRewriteMd (enrich : EnrichFn) (moveMd : Bool)
    (dirs : List (List Char)) (entries : List (List Char))
    (removeTopH1 rewritePaths : Bool) (mdFileRel content : List Char) :
    List Char × RState :=
  let r := twoPassResolve enrich moveMd dirs entries
  rewriteMdText enrich moveMd dirs r.2 (finalMapOf r.1) removeTopH1
    rewritePaths mdFileRel content

/-- Decoding outcome of a source entry's byte content: valid text in the
expected encoding, or bytes that raise `UnicodeDecodeError`. -/
inductive EntryData where
  | utf8Text (s : List Char)
  | nonUtf8
  deriving DecidableEq, Repr

/-- The one exception the pure write-step models can raise. -/
inductive PyErr where
  | unicodeDecodeError
  deriving DecidableEq, Repr

/-- A materialized entry: rewritten text or the raw source bytes, together
with the timestamp stamped on the written entry. -/
inductive EntryOut where
  | text (s : List Char) (ts : Nat)
  | raw (ts : Nat)
  deriving DecidableEq, Repr

/-- The per-entry write step of `_two_pass_tree_to_zip` (lines 453-533).
`mdFn`/`csvFn` abstract the content-rewriting closures (modelled separately
by `rewriteMdText`), `now` is `datetime.now()`, `srcTs` the source file's
own modification time and `mt` the entry's mapped enrichment timestamp.
A markdown entry is read with `open(..., encoding="utf-8")` under no
handler, so undecodable bytes raise out of the pass; a csv entry falls back
to `zf.write(abs_path, ...)`, which stamps the source file's time, as does
the verbatim branch. -/
def treeToZipEntry (mdFn csvFn : List Char → List Char) (now : Nat)
    (relPath : List Char) (srcTs : Nat) (d : EntryData) (mt : Option Nat)
    (rewritePaths : Bool) : Except PyErr EntryOut :=
  if endsWithLower (cs ".md") relPath then
    match d with
    | .utf8Text s => .ok (.text (mdFn s) (mt.getD now))
    | .nonUtf8 => .error .unicodeDecodeError
  else if endsWithLower (cs ".csv") relPath && rewritePaths then
    match d with
    | .utf8Text s => .ok (.text (csvFn s) (mt.getD now))
    | .nonUtf8 => .ok (.raw srcTs)
  else .ok (.raw srcTs)

/-- The per-entry write step of `_two_pass_tree_to_dir` (lines 624-694):
markdown is likewise read without a decode handler; the csv fallback and the
verbatim branch use `_copy_file_with_times(..., None)`, i.e. `shutil.copy2`,
which preserves the source file's time. -/
def treeToDirEntry (mdFn csvFn : List Char → List Char) (now : Nat)
    (relPath : List Char) (srcTs : Nat) (d : EntryData) (mt : Option Nat)
    (rewritePaths : Bool) : Except PyErr EntryOut :=
  if endsWithLower (cs ".md") relPath then
    match d with
    | .utf8Text s => .ok (.text (mdFn s) (mt.getD now))
    | .nonUtf8 => .error .unicodeDecodeError
  else if endsWithLower (cs ".csv") relPath && rewritePaths then
    match d with
    | .utf8Text s => .ok (.text (csvFn s) (mt.getD now))
    | .nonUtf8 => .ok (.raw srcTs)
  else .ok (.raw srcTs)

/-- The per-entry write step of `_two_pass_zip_to_zip` (lines 829-928): an
undecodable markdown entry is copied raw (with a warning) under
`_zipinfo_with_dt(final_path, mt)`, an undecodable csv entry and the
verbatim branch keep the source `date_time`; no branch raises. -/
def zipToZipEntry (mdFn csvFn : List Char → List Char) (now : Nat)
    (relPath : List Char) (srcTs : Nat) (d : EntryData) (mt : Option Nat)
    (rewritePaths : Bool) : EntryOut :=
  if endsWithLower (cs ".md") relPath then
    match d with
    | .utf8Text s => .text (mdFn s) (mt.getD now)
    | .nonUtf8 => .raw (mt.getD now)
  else if endsWithLower (cs ".csv") relPath && rewritePaths then
    match d with
    | .utf8Text s => .text (csvFn s) (mt.getD now)
    | .nonUtf8 => .raw srcTs
  else .raw srcTs

/-- The timestamp C8 claims every entry is written with: enrichment override
if present, else the source timestamp, else a generation-time default. -/
def claimedTs (mt : Option Nat) (srcTs : Option Nat) (now : Nat) : Nat :=
  mt.getD (srcTs.getD now)

/-- Timestamp of a materialized entry. -/
def tsOf : EntryOut → Nat
  | .text _ ts => ts
  | .raw ts => ts

/-! ### Lemmas about the collision registry -/

theorem candName_injective (stem ext : List Char) :
    Function.Injective (candName stem ext) := by
  intro i j h
  unfold candName at h
  have h1 := List.append_cancel_left h
  simp only [List.cons.injEq, true_and] at h1
  exact natRepr_injective (List.append_cancel_right h1)

/-- Number of candidate indices in `[i, i+fuel)` whose candidate name is
already claimed or blocked. -/
def nBlocked (used exn : List (List Char)) (stem ext : List Char)
    (i fuel : Nat) : Nat :=
  ((List.range' i fuel).filter
    (fun k => decide (candName stem ext k ∈ used) ||
              decide (candName stem ext k ∈ exn))).length

theorem nBlocked_le (used exn : List (List Char)) (stem ext : List Char)
    (i fuel : Nat) :
    nBlocked used exn stem ext i fuel ≤ used.length + exn.length := by
  set p : Nat → Bool := fun k =>
    decide (candName stem ext k ∈ used) || decide (candName stem ext k ∈ exn)
    with hp
  set l := (List.range' i fuel).filter p with hl
  have hnd : l.Nodup := List.Nodup.filter p (List.nodup_range' _ _ _)
  have hndm : (l.map (candName stem ext)).Nodup :=
    hnd.map (candName_injective stem ext)
  have hsub : ∀ x ∈ l.map (candName stem ext), x ∈ used ++ exn := by
    intro x hx
    obtain ⟨k, hk, rfl⟩ := List.mem_map.mp hx
    have := List.of_mem_filter hk
    rw [hp] at this
    simp only [Bool.or_eq_true, decide_eq_true_eq] at this
    exact List.mem_append.mpr this
  have h1 : (l.map (candName stem ext)).toFinset.card =
      (l.map (candName stem ext)).length := List.toFinset_card_of_nodup hndm
  have h2 : (l.map (candName stem ext)).toFinset ⊆ (used ++ exn).toFinset := by
    intro x hx
    exact List.mem_toFinset.mpr (hsub x (List.mem_toFinset.mp hx))
  calc nBlocked used exn stem ext i fuel
      = (l.map (candName stem ext)).length := by
        simp [nBlocked, hl, hp]
    _ = (l.map (candName stem ext)).toFinset.card := h1.symm
    _ ≤ (used ++ exn).toFinset.card := Finset.card_le_card h2
    _ ≤ (used ++ exn).length := List.toFinset_card_le _
    _ = used.length + exn.length := List.length_append _ _

theorem findFree_go (used exn : List (List Char)) (stem ext : List Char) :
    ∀ fuel i, nBlocked used exn stem ext i fuel < fuel →
      ∃ k, i ≤ k ∧ findFree used exn stem ext fuel i = candName stem ext k ∧
        candName stem ext k ∉ used ∧ candName stem ext k ∉ exn ∧
        ∀ j, i ≤ j → j < k →
          (candName stem ext j ∈ used ∨ candName stem ext j ∈ exn) := by
  intro fuel
  induction fuel with
  | zero => intro i h; omega
  | succ fuel ih =>
    intro i h
    by_cases hb :
        candName stem ext i ∈ used ∨ candName stem ext i ∈ exn
    · have hrange : List.range' i (fuel + 1) = i :: List.range' (i + 1) fuel :=
        List.range'_succ i fuel 1
      have hcnt : nBlocked used exn stem ext i (fuel + 1) =
          1 + nBlocked used exn stem ext (i + 1) fuel := by
        simp only [nBlocked, hrange, List.filter_cons]
        have : (decide (candName stem ext i ∈ used) ||
            decide (candName stem ext i ∈ exn)) = true := by
          simpa using hb
        rw [this]
        simp [Nat.add_comm]
      have hlt : nBlocked used exn stem ext (i + 1) fuel < fuel := by omega
      obtain ⟨k, hk1, hk2, hk3, hk4, hk5⟩ := ih (i + 1) hlt
      refine ⟨k, by omega, ?_, hk3, hk4, ?_⟩
      · show findFree used exn stem ext (fuel + 1) i = _
        rw [findFree]
        have hc : (decide (candName stem ext i ∈ used) ||
            decide (candName stem ext i ∈ exn)) = true := by simpa using hb
        simp only [hc, if_true, hk2]
      · intro j hj1 hj2
        rcases Nat.eq_or_lt_of_le hj1 with rfl | hgt
        · exact hb
        · exact hk5 j hgt hj2
    · refine ⟨i, le_refl i, ?_, ?_, ?_, ?_⟩
      · rw [findFree]
        have : (decide (candName stem ext i ∈ used) ||
            decide (candName stem ext i ∈ exn)) = false := by
          simpa using hb
        simp [this]
      · intro hc; exact hb (Or.inl hc)
      · intro hc; exact hb (Or.inr hc)
      · intro j hj1 hj2; omega

theorem findFree_std (used exn : List (List Char)) (stem ext : List Char) :
    ∃ k, 1 ≤ k ∧
      findFree used exn stem ext (used.length + exn.length + 1) 1 =
        candName stem ext k ∧
      candName stem ext k ∉ used ∧ candName stem ext k ∉ exn ∧
      ∀ j, 1 ≤ j → j < k →
        (candName stem ext j ∈ used ∨ candName stem ext j ∈ exn) :=
  findFree_go used exn stem ext (used.length + exn.length + 1) 1
    (Nat.lt_succ_of_le (nBlocked_le used exn stem ext 1 _))

theorem regGet_regSet (st : RState) (p : List Char) (v : List (List Char))
    (q : List Char) :
    regGet (regSet st p v) q = if p = q then v else regGet st q := by
  induction st with
  | nil => by_cases h : p = q <;> simp [regSet, regGet, h]
  | cons kv t ih =>
    obtain ⟨k, w⟩ := kv
    by_cases hk : k = p
    · subst hk
      by_cases h : k = q <;> simp [regSet, regGet, h]
    · by_cases h : k = q
      · subst h
        have hpq : ¬ p = k := fun hh => hk hh.symm
        simp [regSet, regGet, hk, hpq]
      · simp [regSet, regGet, hk, h, ih]

theorem reserve_pos (normP : List Char → List Char)
    (ex : List Char → List (List Char)) (st : RState) (parent fname : List Char)
    (h : fname ∉ regGet st (normP parent) ∧ fname ∉ ex (normP parent)) :
    reserve normP ex st parent fname =
      (fname, regSet st (normP parent)
        (regGet st (normP parent) ++ [fname])) := by
  unfold reserve
  rw [if_pos h]

theorem reserve_neg (normP : List Char → List Char)
    (ex : List Char → List (List Char)) (st : RState) (parent fname : List Char)
    (h : ¬ (fname ∉ regGet st (normP parent) ∧ fname ∉ ex (normP parent))) :
    reserve normP ex st parent fname =
      (findFree (regGet st (normP parent)) (ex (normP parent))
          (splitext fname).1 (splitext fname).2
          ((regGet st (normP parent)).length + (ex (normP parent)).length + 1) 1,
        regSet st (normP parent)
          (regGet st (normP parent) ++
            [findFree (regGet st (normP parent)) (ex (normP parent))
              (splitext fname).1 (splitext fname).2
              ((regGet st (normP parent)).length + (ex (normP parent)).length + 1)
              1])) := by
  unfold reserve
  rw [if_neg h]

theorem reserve_fst_not_mem_used (normP : List Char → List Char)
    (ex : List Char → List (List Char)) (st : RState) (parent fname : List Char) :
    (reserve normP ex st parent fname).1 ∉ regGet st (normP parent) := by
  by_cases h : fname ∉ regGet st (normP parent) ∧ fname ∉ ex (normP parent)
  · rw [reserve_pos normP ex st parent fname h]
    exact h.1
  · rw [reserve_neg normP ex st parent fname h]
    obtain ⟨k, _, heq, hk3, _, _⟩ :=
      findFree_std (regGet st (normP parent)) (ex (normP parent))
        (splitext fname).1 (splitext fname).2
    simpa [heq] using hk3

theorem reserve_fst_mem_after (normP : List Char → List Char)
    (ex : List Char → List (List Char)) (st : RState) (parent fname : List Char) :
    (reserve normP ex st parent fname).1 ∈
      regGet (reserve normP ex st parent fname).2 (normP parent) := by
  by_cases h : fname ∉ regGet st (normP parent) ∧ fname ∉ ex (normP parent)
  · rw [reserve_pos normP ex st parent fname h]
    simp [regGet_regSet]
  · rw [reserve_neg normP ex st parent fname h]
    simp [regGet_regSet]

theorem reserve_mono (normP : List Char → List Char)
    (ex : List Char → List (List Char)) (st : RState) (parent fname : List Char)
    (q : List Char) (y : List Char) (hy : y ∈ regGet st q) :
    y ∈ regGet (reserve normP ex st parent fname).2 q := by
  by_cases h : fname ∉ regGet st (normP parent) ∧ fname ∉ ex (normP parent)
  · rw [reserve_pos normP ex st parent fname h]
    by_cases hq : normP parent = q
    · subst hq
      simp only [regGet_regSet, if_pos rfl]
      exact List.mem_append_left _ hy
    · simpa [regGet_regSet, hq] using hy
  · rw [reserve_neg normP ex st parent fname h]
    by_cases hq : normP parent = q
    · subst hq
      simp only [regGet_regSet, if_pos rfl]
      exact List.mem_append_left _ hy
    · simpa [regGet_regSet, hq] using hy

theorem resolveAll_state_mono (normP : List Char → List Char)
    (ex : List Char → List (List Char)) :
    ∀ (props : List (List Char × List Char)) (st : RState) (q y : List Char)
      (_ : y ∈ regGet st q),
      y ∈ regGet (resolveAll normP ex st props).2 q := by
  intro props
  induction props with
  | nil => intro st q y hy; exact hy
  | cons pr rest ih =>
    intro st q y hy
    exact ih _ q y (reserve_mono normP ex st _ _ q y hy)

theorem resolveAll_out_not_mem (normP : List Char → List Char)
    (ex : List Char → List (List Char)) :
    ∀ (props : List (List Char × List Char)) (st : RState)
      (e : List Char × List Char × List Char)
      (_ : e ∈ (resolveAll normP ex st props).1),
      e.2.2 ∉ regGet st (normP e.2.1) := by
  intro props
  induction props with
  | nil => intro st e he; simp [resolveAll] at he
  | cons pr rest ih =>
    intro st e he
    simp only [resolveAll, List.mem_cons] at he
    rcases he with rfl | he
    · exact reserve_fst_not_mem_used normP ex st _ _
    · intro hmem
      exact ih _ e he
        (reserve_mono normP ex st (osSplit pr.2).1 (osSplit pr.2).2 _ _ hmem)

theorem resolveAll_pairwise (normP : List Char → List Char)
    (ex : List Char → List (List Char)) :
    ∀ (props : List (List Char × List Char)) (st : RState),
      (resolveAll normP ex st props).1.Pairwise
        (fun a b => normP a.2.1 = normP b.2.1 → a.2.2 ≠ b.2.2) := by
  intro props
  induction props with
  | nil => intro st; simp [resolveAll]
  | cons pr rest ih =>
    intro st
    simp only [resolveAll, List.pairwise_cons]
    constructor
    · intro b hb hpar heq
      have h1 := reserve_fst_mem_after normP ex st (osSplit pr.2).1 (osSplit pr.2).2
      have h2 := resolveAll_out_not_mem normP ex rest
        (reserve normP ex st (osSplit pr.2).1 (osSplit pr.2).2).2 b hb
      rw [← hpar, ← heq] at h2
      exact h2 h1
    · exact ih _

theorem reserve_repeat_ne (normP : List Char → List Char)
    (ex : List Char → List (List Char)) (st : RState) (parent fname : List Char) :
    (reserve normP ex
        (reserve normP ex st parent fname).2 parent fname).1 ≠
      (reserve normP ex st parent fname).1 := by
  intro heq
  have h1 := reserve_fst_mem_after normP ex st parent fname
  have h2 := reserve_fst_not_mem_used normP ex
    (reserve normP ex st parent fname).2 parent fname
  rw [heq] at h2
  exact h2 h1

/-! ### Characterization of the ID-suffix match (C5) -/

/-- A decomposition witnessing a successful `ID_SUFFIX_RE.search`: some
prefix, a non-empty newline-free matched text, one whitespace separator,
32 hex digits, and either nothing or one final newline (the `$` anchor). -/
def IdDecomp (name : List Char) : Prop :=
  ∃ a t w h trail, name = a ++ t ++ w :: h ++ trail ∧ t ≠ [] ∧
    (∀ c ∈ t, c ≠ '\n') ∧ isPySpace w = true ∧ h.length = 32 ∧
    (∀ c ∈ h, isHexDig c = true) ∧ (trail = [] ∨ trail = ['\n'])

theorem tryIdMatch_decomp {name : List Char} {s L : Nat} (hL : 1 ≤ L)
    (h : tryIdMatch name s L = true) : IdDecomp name := by
  unfold tryIdMatch at h
  simp only [Bool.and_eq_true, decide_eq_true_eq, List.all_eq_true] at h
  obtain ⟨⟨hlen, hnl⟩, hrest⟩ := h
  cases hre : (name.drop s).drop L with
  | nil => rw [hre] at hrest; simp at hrest
  | cons w r =>
    rw [hre] at hrest
    simp only [Bool.and_eq_true, decide_eq_true_eq, List.all_eq_true,
      Bool.or_eq_true] at hrest
    obtain ⟨⟨⟨hw, hh32⟩, hhex⟩, htrail⟩ := hrest
    refine ⟨name.take s, (name.drop s).take L, w, r.take 32, r.drop 32, ?_, ?_,
      ?_, hw, hh32, hhex, htrail⟩
    · calc name = name.take s ++ name.drop s := (List.take_append_drop s name).symm
        _ = name.take s ++ ((name.drop s).take L ++ (name.drop s).drop L) := by
            conv_rhs => rw [List.take_append_drop]
        _ = name.take s ++ ((name.drop s).take L ++ (w :: r)) := by rw [hre]
        _ = name.take s ++ (name.drop s).take L ++ w :: r.take 32 ++
              r.drop 32 := by
            simp only [List.append_assoc, List.cons_append,
              List.take_append_drop]
    · intro hnil
      rw [hnil] at hlen
      simp at hlen
      omega
    · exact hnl

theorem decomp_tryIdMatch {a t : List Char} {w : Char} {h trail : List Char}
    (_ht : t ≠ []) (hnl : ∀ c ∈ t, c ≠ '\n') (hw : isPySpace w = true)
    (hh : h.length = 32) (hhex : ∀ c ∈ h, isHexDig c = true)
    (htr : trail = [] ∨ trail = ['\n']) :
    tryIdMatch (a ++ t ++ w :: h ++ trail) a.length t.length = true := by
  have hname : a ++ t ++ w :: h ++ trail = a ++ (t ++ (w :: (h ++ trail))) := by
    simp [List.append_assoc]
  unfold tryIdMatch
  rw [hname, List.drop_left, List.take_left, List.drop_left]
  simp only [Bool.and_eq_true, decide_eq_true_eq, List.all_eq_true]
  refine ⟨⟨trivial, hnl⟩, ?_⟩
  have h32take : (h ++ trail).take 32 = h := by
    rw [← hh]; exact List.take_left h trail
  have h32drop : (h ++ trail).drop 32 = trail := by
    rw [← hh]; exact List.drop_left h trail
  simp only [h32take, h32drop, Bool.and_eq_true, decide_eq_true_eq,
    List.all_eq_true, Bool.or_eq_true]
  exact ⟨⟨⟨hw, hh⟩, hhex⟩, htr⟩

theorem mem_idCandidates {n s L : Nat} (hs : s ≤ n) (hL1 : 1 ≤ L)
    (hLn : L ≤ n) : (s, L) ∈ idCandidates n := by
  unfold idCandidates
  refine List.mem_flatMap.mpr ⟨s, List.mem_range.mpr (by omega), ?_⟩
  refine List.mem_map.mpr ⟨L - 1, List.mem_range.mpr (by omega), ?_⟩
  rw [Prod.mk.injEq]
  exact ⟨rfl, by omega⟩

/-- `ID_SUFFIX_RE.search` succeeds exactly on the names admitting a
whitespace-separated 32-hex decomposition (with the `$`-anchor newline
tolerance). -/
theorem idSearch_isSome_iff (name : List Char) :
    (idSearch name).isSome = true ↔ IdDecomp name := by
  constructor
  · intro hsome
    unfold idSearch at hsome
    cases hf : (idCandidates name.length).find?
        (fun p => tryIdMatch name p.1 p.2) with
    | none => rw [hf] at hsome; simp at hsome
    | some p =>
      obtain ⟨s, L⟩ := p
      have hpred := List.find?_some hf
      have hmem := List.mem_of_find?_eq_some hf
      unfold idCandidates at hmem
      obtain ⟨s', hs', hmem2⟩ := List.mem_flatMap.mp hmem
      obtain ⟨l, _, heq⟩ := List.mem_map.mp hmem2
      rw [Prod.mk.injEq] at heq
      obtain ⟨rfl, rfl⟩ := heq
      exact tryIdMatch_decomp (by omega) hpred
  · rintro ⟨a, t, w, h, trail, rfl, ht, hnl, hw, hh, hhex, htr⟩
    have hpred := @decomp_tryIdMatch a t w h trail ht hnl hw hh hhex htr
    have hlen : (a ++ t ++ w :: h ++ trail).length =
        a.length + t.length + 1 + h.length + trail.length := by
      simp
      omega
    have htpos : 1 ≤ t.length := by
      cases t with
      | nil => exact absurd rfl ht
      | cons c r => simp
    have hmem : (a.length, t.length) ∈
        idCandidates (a ++ t ++ w :: h ++ trail).length := by
      apply mem_idCandidates <;> omega
    unfold idSearch
    cases hf : (idCandidates (a ++ t ++ w :: h ++ trail).length).find?
        (fun p => tryIdMatch (a ++ t ++ w :: h ++ trail) p.1 p.2) with
    | none =>
      have := List.find?_eq_none.mp hf _ hmem
      simp only [hpred] at this
      exact absurd trivial this
    | some p => simp

/-- The condition under which `_rewrite_single_basename` relocates a markdown
leaf into a same-named folder (lines 259-266 of the source). -/
@[reducible] def mdMoveApplies (moveMd : Bool) (dirs : List (List Char))
    (p : List Char) : Prop :=
  lowerList (splitext (osSplit p).2).2 = cs ".md" ∧ moveMd = true ∧
    List.intercalate ['/']
        (([stripDotSlash (normBackslashRuns (osSplit p).1),
            (splitext (osSplit p).2).1]).filter (fun x => x ≠ [])) ∈ dirs

theorem rewriteSingle_strip {moveMd : Bool} {dirs : List (List Char)}
    {p t : List Char}
    (hid : idSearch (splitext (osSplit p).2).1 = some t)
    (hmv : ¬ mdMoveApplies moveMd dirs p) :
    rewriteSingleBasename offlineEnrich moveMd dirs p =
      { newName := sanitizeName t ++ (splitext (osSplit p).2).2,
        createdTime := none, lastEditedTime := none } := by
  unfold rewriteSingleBasename
  unfold mdMoveApplies at hmv
  by_cases h1 : lowerList (splitext (osSplit p).2).2 = cs ".md"
  · by_cases h2 : moveMd = true
    · have h3 : List.intercalate ['/']
          (([stripDotSlash (normBackslashRuns (osSplit p).1),
              (splitext (osSplit p).2).1]).filter (fun x => x ≠ [])) ∉ dirs :=
        fun hmem => hmv ⟨h1, h2, hmem⟩
      simp only [ne_eq, decide_not] at h3
      simp [hid, offlineEnrich, h1, h2, h3]
    · simp [hid, offlineEnrich, h1, h2]
  · simp [hid, offlineEnrich, h1]

theorem rewriteSingle_no_strip {moveMd : Bool} {dirs : List (List Char)}
    {p : List Char}
    (hid : idSearch (splitext (osSplit p).2).1 = none)
    (hmv : ¬ mdMoveApplies moveMd dirs p) :
    rewriteSingleBasename offlineEnrich moveMd dirs p =
      { newName := sanitizeName (splitext (osSplit p).2).1 ++
          (splitext (osSplit p).2).2,
        createdTime := none, lastEditedTime := none } := by
  unfold rewriteSingleBasename
  unfold mdMoveApplies at hmv
  by_cases h1 : lowerList (splitext (osSplit p).2).2 = cs ".md"
  · by_cases h2 : moveMd = true
    · have h3 : List.intercalate ['/']
          (([stripDotSlash (normBackslashRuns (osSplit p).1),
              (splitext (osSplit p).2).1]).filter (fun x => x ≠ [])) ∉ dirs :=
        fun hmem => hmv ⟨h1, h2, hmem⟩
      simp only [ne_eq, decide_not] at h3
      simp [hid, offlineEnrich, h1, h2, h3]
    · simp [hid, offlineEnrich, h1, h2]
  · simp [hid, offlineEnrich, h1]

theorem collapseWsAux_length_le :
    ∀ (fuel : Nat) (l : List Char), (collapseWsAux fuel l).length ≤ l.length := by
  intro fuel
  induction fuel with
  | zero => intro l; simp [collapseWsAux]
  | succ fuel ih =>
    intro l
    cases l with
    | nil => simp [collapseWsAux]
    | cons c rest =>
      rw [collapseWsAux]
      split
      · have h1 := ih (rest.dropWhile isPySpace)
        have h2 := (List.dropWhile_sublist (l := rest) isPySpace).length_le
        simp only [List.length_cons]
        omega
      · have h1 := ih rest
        simp only [List.length_cons]
        omega

theorem collapseWs_length_le (l : List Char) :
    (collapseWs l).length ≤ l.length := collapseWsAux_length_le l.length l

theorem truncate200_length_le (l : List Char) :
    (truncate200 l).length ≤ 200 := by
  unfold truncate200
  split
  · simp
  · omega

theorem sanitizeName_length_le (name : List Char) :
    (sanitizeName name).length ≤ 200 :=
  le_trans (collapseWs_length_le _) (truncate200_length_le _)

theorem sanitizeName_eq_of_short {name : List Char}
    (h : (stripWs (replaceInvalid name)).length ≤ 200) :
    sanitizeName name = collapseWs (stripWs (replaceInvalid name)) := by
  unfold sanitizeName truncate200
  have hc : ¬ 200 < (stripWs (replaceInvalid name)).length := by omega
  simp [hc]

/-! ### Lemmas about the markdown link scanner -/

theorem groupScan_none_of_bad {u : List Char}
    (hbad : ∃ c ∈ u, linkChar c = false) (hpar : ')' ∉ u) :
    ∀ (j : Nat) (rest : List Char), groupScan (u ++ rest) j = none := by
  induction u with
  | nil => obtain ⟨c, hc, _⟩ := hbad; exact absurd hc (List.not_mem_nil c)
  | cons c u' ih =>
    intro j rest
    have hcpar : c ≠ ')' := fun h => hpar (h ▸ List.mem_cons_self c u')
    by_cases hc : linkChar c = true
    · have hbad' : ∃ d ∈ u', linkChar d = false := by
        obtain ⟨d, hd, hdf⟩ := hbad
        rcases List.mem_cons.mp hd with rfl | hd'
        · rw [hc] at hdf; cases hdf
        · exact ⟨d, hd', hdf⟩
      have hpar' : ')' ∉ u' := fun h => hpar (List.mem_cons_of_mem c h)
      rw [List.cons_append, groupScan]
      simp only [hcpar, hc]
      simpa using ih hbad' hpar' (j + 1) rest
    · rw [List.cons_append, groupScan]
      simp only [Bool.not_eq_true] at hc
      simp [hcpar, hc]

theorem groupScan_of_good {u : List Char} (hgood : ∀ c ∈ u, linkChar c = true)
    (hpar : ')' ∉ u) :
    ∀ (j : Nat) (rest : List Char), 1 ≤ j + u.length →
      groupScan (u ++ ')' :: rest) j = some (j + u.length) := by
  induction u with
  | nil =>
    intro j rest hj
    simp only [List.nil_append, groupScan, List.length_nil, Nat.add_zero]
    have : j ≥ 1 := by simpa using hj
    simp [this]
  | cons c u' ih =>
    intro j rest hj
    have hcpar : c ≠ ')' := fun h => hpar (h ▸ List.mem_cons_self c u')
    have hc : linkChar c = true := hgood c (List.mem_cons_self c u')
    rw [List.cons_append, groupScan]
    simp only [hcpar, hc]
    have hg' : ∀ d ∈ u', linkChar d = true :=
      fun d hd => hgood d (List.mem_cons_of_mem c hd)
    have hp' : ')' ∉ u' := fun h => hpar (List.mem_cons_of_mem c h)
    have := ih hg' hp' (j + 1) rest (by omega)
    simp only [List.length_cons]
    rw [show j + (u'.length + 1) = j + 1 + u'.length by omega]
    simpa using this

theorem labelGroupScan_skip {l : List Char} (hbr : ']' ∉ l) (hnl : '\n' ∉ l) :
    ∀ (m : List Char) (j : Nat),
      labelGroupScan (l ++ m) j = labelGroupScan m (j + l.length) := by
  induction l with
  | nil => intro m j; simp
  | cons c l' ih =>
    intro m j
    have hc1 : c ≠ ']' := fun h => hbr (h ▸ List.mem_cons_self c l')
    have hc2 : c ≠ '\n' := fun h => hnl (h ▸ List.mem_cons_self c l')
    rw [List.cons_append, labelGroupScan]
    simp only [hc1, hc2]
    have hbr' : ']' ∉ l' := fun h => hbr (List.mem_cons_of_mem c h)
    have hnl' : '\n' ∉ l' := fun h => hnl (List.mem_cons_of_mem c h)
    have := ih hbr' hnl' m (j + 1)
    simp only [List.length_cons]
    rw [show j + (l'.length + 1) = j + 1 + l'.length by omega]
    simpa [hc1, hc2] using this

theorem hasInfix_brkt_false {m : List Char} (h : ']' ∉ m) :
    hasInfix (cs "](") m = false := by
  induction m with
  | nil => rfl
  | cons c r ih =>
    have hc : c ≠ ']' := fun hh => h (hh ▸ List.mem_cons_self c r)
    have h' : ']' ∉ r := fun hh => h (List.mem_cons_of_mem c hh)
    rw [hasInfix]
    rw [Bool.or_eq_false_iff]
    constructor
    · show (cs "](").isPrefixOf (c :: r) = false
      have : cs "](" = ']' :: ['('] := rfl
      rw [this, List.isPrefixOf]
      simp only [Bool.and_eq_false_iff]
      left
      simpa using fun heq => hc heq.symm
    · exact ih h'

theorem labelGroupScan_none_of_no_stop {m : List Char}
    (h : hasInfix (cs "](") m = false) :
    ∀ j : Nat, labelGroupScan m j = none := by
  induction m with
  | nil => intro j; rfl
  | cons c r ih =>
    intro j
    rw [hasInfix, Bool.or_eq_false_iff] at h
    obtain ⟨hpre, hrest⟩ := h
    by_cases hnl : c = '\n'
    · rw [labelGroupScan]; simp [hnl]
    · by_cases hstop : c = ']' ∧ r.head? = some '('
      · exfalso
        obtain ⟨rfl, hh⟩ := hstop
        cases r with
        | nil => simp at hh
        | cons d r' =>
          simp only [List.head?_cons, Option.some.injEq] at hh
          subst hh
          have : cs "](" = ']' :: ['('] := rfl
          rw [this] at hpre
          simp [List.isPrefixOf] at hpre
      · rw [labelGroupScan]
        rcases Decidable.not_and_iff_or_not.mp hstop with hc | hh
        · simp [hnl, hc, ih hrest]
        · by_cases hc : c = ']'
          · simp [hnl, hc, hh, ih hrest]
          · simp [hnl, hc, ih hrest]

theorem labelGroupScan_good {l : List Char} (hne : l ≠ []) (hbr : ']' ∉ l)
    (hnl : '\n' ∉ l) {m : List Char} {g : Nat} (hg : groupScan m 0 = some g) :
    ∀ j : Nat, labelGroupScan (l ++ ']' :: '(' :: m) j = some (j + l.length, g) := by
  intro j
  rw [labelGroupScan_skip hbr hnl]
  have hj1 : 1 ≤ j + l.length := by
    cases l with
    | nil => exact absurd rfl hne
    | cons c r => simp only [List.length_cons]; omega
  rw [labelGroupScan]
  simp [hj1, hg]

theorem matchAt_nil : matchAt [] = none := rfl

theorem matchAt_open (rest : List Char) :
    matchAt ('[' :: rest) = (labelGroupScan rest 0).map (fun p => (1, p.1, p.2)) :=
  rfl

theorem matchAt_bang (rest : List Char) (h : rest.head? ≠ some '[') :
    matchAt ('!' :: rest) = none := by
  cases rest with
  | nil => rfl
  | cons d r =>
    by_cases hd : d = '['
    · subst hd; simp at h
    · rw [matchAt.eq_def]
      split
      · next heq => rw [List.cons.injEq, List.cons.injEq] at heq; exact absurd heq.2.1 hd
      · next heq => rw [List.cons.injEq] at heq; simp at heq
      · rfl

theorem matchAt_other (c : Char) (rest : List Char) (h1 : c ≠ '[')
    (h2 : c ≠ '!') : matchAt (c :: rest) = none := by
  rw [matchAt.eq_def]
  split
  · next heq => rw [List.cons.injEq] at heq; exact absurd heq.1 h2
  · next heq => rw [List.cons.injEq] at heq; exact absurd heq.1 h1
  · rfl

theorem searchLinkAux_none {m : List Char}
    (h : ∀ m', m' <:+ m → matchAt m' = none) :
    ∀ (fuel s : Nat), searchLinkAux fuel m s = none := by
  induction m with
  | nil => intro fuel s; cases fuel <;> rfl
  | cons c r ih =>
    intro fuel s
    cases fuel with
    | zero => rfl
    | succ fuel =>
      rw [searchLinkAux]
      · rw [h (c :: r) (List.suffix_refl _)]
        exact ih (fun m' hm' => h m' (hm'.trans (List.suffix_cons c r))) fuel
          (s + 1)
      · simp

theorem searchLinkAux_head {m : List Char} {pre L G : Nat}
    (h : matchAt m = some (pre, L, G)) (fuel s : Nat) :
    searchLinkAux (fuel + 1) m s =
      some (s + pre + L + 2, s + pre + L + 2 + G) := by
  cases m with
  | nil => rw [matchAt_nil] at h; cases h
  | cons c r =>
    rw [searchLinkAux, h]
    simp

theorem matchAt_none_of_no_open {T : List Char} (hT : '[' ∉ T) :
    ∀ m', m' <:+ T → matchAt m' = none := by
  intro m' hm'
  have hsub := hm'.subset
  cases m' with
  | nil => exact matchAt_nil
  | cons c r =>
    have hc : c ∈ T := hsub (List.mem_cons_self c r)
    by_cases hcb : c = '['
    · exact absurd (hcb ▸ hc) hT
    · by_cases hcx : c = '!'
      · subst hcx
        apply matchAt_bang
        intro hh
        cases r with
        | nil => simp at hh
        | cons d r' =>
          simp only [List.head?_cons, Option.some.injEq] at hh
          subst hh
          exact hT (hsub (List.mem_cons_of_mem _ (List.mem_cons_self _ r')))
      · exact matchAt_other c r hcb hcx

theorem searchFrom_none_of_no_open {md : List Char} (pos : Nat)
    (hT : '[' ∉ md.drop pos) : searchFrom md pos = none := by
  unfold searchFrom
  exact searchLinkAux_none
    (fun m' hm' => matchAt_none_of_no_open hT m' hm') _ _

/-- One unfolding of the loop when the search fails. -/
theorem rewriteLinksAux_stop (mpF : RState → List Char → List Char × RState)
    (fuel : Nat) (st : RState) (md : List Char) (pos : Nat)
    (h : searchFrom md pos = none) :
    rewriteLinksAux mpF (fuel + 1) st md pos = (md, st) := by
  rw [rewriteLinksAux, h]

theorem labelGroupScan_tail_none {l u : List Char}
    (h2 : ']' ∉ l) (h3 : '\n' ∉ l) (h5 : ']' ∉ u) (h6 : ')' ∉ u)
    (hdisj : l = [] ∨ ∃ c ∈ u, linkChar c = false) :
    labelGroupScan (l ++ ']' :: '(' :: (u ++ [')'])) 0 = none := by
  have hnstop : hasInfix (cs "](") (u ++ [')']) = false := by
    apply hasInfix_brkt_false
    intro hmem
    rcases List.mem_append.mp hmem with hh | hh
    · exact h5 hh
    · simp at hh
  by_cases hl : l = []
  · subst hl
    simp only [List.nil_append]
    rw [labelGroupScan]
    rw [if_neg (by decide), if_neg (by simp)]
    rw [labelGroupScan]
    rw [if_neg (by decide), if_neg (by simp)]
    exact labelGroupScan_none_of_no_stop hnstop 2
  · have hbad : ∃ c ∈ u, linkChar c = false := hdisj.resolve_left hl
    rw [labelGroupScan_skip h2 h3]
    rw [labelGroupScan]
    have hl1 : 1 ≤ l.length := by
      cases l with
      | nil => exact absurd rfl hl
      | cons c r => simp
    rw [if_neg (by decide)]
    have hstop : (decide (0 + l.length ≥ 1) && decide ((']' : Char) = ']') &&
        decide ((('(' :: (u ++ [')'])).head? = some '('))) = true := by
      simp [hl1]
    rw [if_pos hstop]
    have hgs : groupScan (('(' :: (u ++ [')'])).tail) 0 = none := by
      simpa using groupScan_none_of_bad hbad h6 0 [')']
    rw [hgs]
    rw [labelGroupScan]
    rw [if_neg (by decide), if_neg (by simp)]
    exact labelGroupScan_none_of_no_stop hnstop _

theorem no_open_in_tail {l u : List Char} (h1 : '[' ∉ l) (h4 : '[' ∉ u) :
    '[' ∉ l ++ ']' :: '(' :: (u ++ [')']) := by
  intro hmem
  rcases List.mem_append.mp hmem with hh | hh
  · exact h1 hh
  · simp only [List.mem_cons, List.mem_append, List.mem_singleton] at hh
    rcases hh with hh | hh | hh | hh
    · exact absurd hh (by decide)
    · exact absurd hh (by decide)
    · exact h4 hh
    · exact absurd hh (by decide)

theorem searchFrom_guarded_none {l u : List Char}
    (h1 : '[' ∉ l) (h2 : ']' ∉ l) (h3 : '\n' ∉ l) (h4 : '[' ∉ u)
    (h5 : ']' ∉ u) (h6 : ')' ∉ u)
    (hdisj : l = [] ∨ ∃ c ∈ u, linkChar c = false) :
    searchFrom ('[' :: (l ++ ']' :: '(' :: (u ++ [')']))) 0 = none := by
  unfold searchFrom
  rw [List.drop_zero]
  apply searchLinkAux_none
  intro m' hm'
  rcases List.suffix_cons_iff.mp hm' with rfl | hsuf
  · rw [matchAt_open, labelGroupScan_tail_none h2 h3 h5 h6 hdisj]
    rfl
  · exact matchAt_none_of_no_open (no_open_in_tail h1 h4) m' hsuf

theorem mapPath_present {enrich : EnrichFn} {moveMd : Bool}
    {dirs : List (List Char)} {st : RState} {fm : List (List Char × List Char)}
    {relT mdRel tFinal mFinal : List Char}
    (ht : lookupFm fm
        (normZipPath (normpath (joinTwo (osDirname mdRel) relT))) = some tFinal)
    (hm : lookupFm fm mdRel = some mFinal) :
    mapPath enrich moveMd dirs st fm relT mdRel =
      (normBackslashRuns (relpath (normZipPath tFinal)
        (dirOrDot (osDirname (normZipPath mFinal)))), st) := by
  unfold mapPath mapTargetFinal relFromMdDir
  simp only [ht, hm, Option.getD_some]

theorem rewriteLinksAux_step (mpF : RState → List Char → List Char × RState)
    (fuel : Nat) (st : RState) (md : List Char) (pos gs ge : Nat)
    (h : searchFrom md pos = some (gs, ge))
    (hcs : hasColonSlash ((md.drop gs).take (ge - gs)) = false) :
    rewriteLinksAux mpF (fuel + 1) st md pos =
      rewriteLinksAux mpF fuel
        (mpF st (unquoteA ((md.drop gs).take (ge - gs)))).2
        (md.take gs ++ quoteA (backslashToSlash
          (mpF st (unquoteA ((md.drop gs).take (ge - gs)))).1) ++ md.drop ge)
        (gs + (quoteA (backslashToSlash
          (mpF st (unquoteA ((md.drop gs).take (ge - gs)))).1)).length) := by
  rw [rewriteLinksAux, h]
  simp only [hcs, Bool.false_eq_true, if_false]

theorem rewriteLinksAux_single
    (mpF : RState → List Char → List Char × RState) (st : RState)
    {l u : List Char} (hne : l ≠ []) (h2 : ']' ∉ l) (h3 : '\n' ∉ l)
    (hu : u ≠ []) (huc : ∀ c ∈ u, linkChar c = true) (h6 : ')' ∉ u)
    (hcs : hasColonSlash u = false) :
    rewriteLinksAux mpF
        (('[' :: (l ++ ']' :: '(' :: (u ++ [')']))).length + 1) st
        ('[' :: (l ++ ']' :: '(' :: (u ++ [')']))) 0 =
      ('[' :: (l ++ ']' :: '(' ::
          (quoteA (backslashToSlash (mpF st (unquoteA u)).1) ++ [')'])),
        (mpF st (unquoteA u)).2) := by
  have hg : groupScan (u ++ ')' :: []) 0 = some (0 + u.length) := by
    apply groupScan_of_good huc h6 0 []
    cases u with
    | nil => exact absurd rfl hu
    | cons c r => simp
  have hscan : labelGroupScan (l ++ ']' :: '(' :: (u ++ [')'])) 0 =
      some (l.length, u.length) := by
    have := labelGroupScan_good hne h2 h3 (m := u ++ [')']) (g := 0 + u.length)
      hg 0
    simpa using this
  have hmatch : matchAt ('[' :: (l ++ ']' :: '(' :: (u ++ [')']))) =
      some (1, l.length, u.length) := by
    rw [matchAt_open, hscan]
    rfl
  have hsearch : searchFrom ('[' :: (l ++ ']' :: '(' :: (u ++ [')']))) 0 =
      some (l.length + 3, l.length + 3 + u.length) := by
    unfold searchFrom
    rw [List.drop_zero]
    have hs := searchLinkAux_head hmatch
      ('[' :: (l ++ ']' :: '(' :: (u ++ [')']))).length 0
    simp only [show 0 + 1 + l.length + 2 = l.length + 3 from by omega] at hs
    exact hs
  have hA : ('[' :: (l ++ ']' :: '(' :: (u ++ [')']))) =
      ('[' :: (l ++ [']', '('])) ++ (u ++ [')']) := by
    simp
  have hAlen : ('[' :: (l ++ [']', '('])).length = l.length + 3 := by
    simp
  have hdrop : ('[' :: (l ++ ']' :: '(' :: (u ++ [')']))).drop (l.length + 3) =
      u ++ [')'] := by
    rw [hA, ← hAlen, List.drop_left]
  have hurl : (('[' :: (l ++ ']' :: '(' :: (u ++ [')']))).drop
      (l.length + 3)).take (l.length + 3 + u.length - (l.length + 3)) = u := by
    rw [hdrop, show l.length + 3 + u.length - (l.length + 3) = u.length from
      by omega]
    exact List.take_left u [')']
  have htakegs : ('[' :: (l ++ ']' :: '(' :: (u ++ [')']))).take
      (l.length + 3) = '[' :: (l ++ [']', '(']) := by
    rw [hA, ← hAlen, List.take_left]
  have hB : ('[' :: (l ++ ']' :: '(' :: (u ++ [')']))) =
      (('[' :: (l ++ [']', '('])) ++ u) ++ [')'] := by
    simp
  have hBlen : (('[' :: (l ++ [']', '('])) ++ u).length =
      l.length + 3 + u.length := by
    simp
    omega
  have hdropge : ('[' :: (l ++ ']' :: '(' :: (u ++ [')']))).drop
      (l.length + 3 + u.length) = [')'] := by
    rw [hB, ← hBlen, List.drop_left]
  rw [rewriteLinksAux_step mpF _ st _ 0 (l.length + 3)
    (l.length + 3 + u.length) hsearch (by rw [hurl]; exact hcs)]
  rw [hurl, htakegs, hdropge]
  set Q := quoteA (backslashToSlash (mpF st (unquoteA u)).1) with hQ
  have hmd' : ('[' :: (l ++ [']', '('])) ++ Q ++ [')'] =
      '[' :: (l ++ ']' :: '(' :: (Q ++ [')'])) := by
    simp
  rw [hmd']
  have hlen : ('[' :: (l ++ ']' :: '(' :: (u ++ [')']))).length =
      (l ++ ']' :: '(' :: (u ++ [')'])).length + 1 := by
    simp
  rw [hlen]
  apply rewriteLinksAux_stop
  apply searchFrom_none_of_no_open
  have hC : ('[' :: (l ++ ']' :: '(' :: (Q ++ [')']))) =
      (('[' :: (l ++ [']', '('])) ++ Q) ++ [')'] := by
    simp
  have hClen : (('[' :: (l ++ [']', '('])) ++ Q).length =
      l.length + 3 + Q.length := by
    simp
    omega
  rw [hC, ← hClen, List.drop_left]
  decide

/-! ### Claim theorems -/

/-- C1: in every pipeline run, the collision resolver's pass over the
proposed paths — from any starting registry state, with any parent
normalization and any destination-existence oracle — assigns final segment
names that are pairwise distinct among entries whose final parents coincide
(the reserve operation never returns a name already reserved in that
parent's registry), so the final mapping restricted to any single parent
directory is injective. -/
theorem claim1_final_names_pairwise_distinct
    (normP : List Char → List Char) (ex : List Char → List (List Char))
    (st : RState) (props : List (List Char × List Char)) :
    (resolveAll normP ex st props).1.Pairwise
      (fun a b => normP a.2.1 = normP b.2.1 → a.2.2 ≠ b.2.2) :=
  resolveAll_pairwise normP ex props st

/-- C1 witness: the pairwise-distinctness instance on a concrete two-entry
collision. -/
theorem claim1_witness :
    (resolveAll zipParentNorm noExisting emptyReg
      [(cs "x", cs "Notes.md"), (cs "y", cs "Notes.md")]).1.Pairwise
      (fun a b => zipParentNorm a.2.1 = zipParentNorm b.2.1 →
        a.2.2 ≠ b.2.2) :=
  claim1_final_names_pairwise_distinct zipParentNorm noExisting emptyReg _

/-- C3 (amended): resolving a reference whose target is present in
FinalMapping leaves the registry state unchanged, and the on-the-fly
resolution of an absent target only reserves a name in the registry —
FinalMapping is not extended — and a repeated reservation of the same
(parent, name) pair always returns a different name, so repeated references
to the same unenumerated target do not resolve to the same final path. -/
theorem claim3_absent_target_not_stable :
    (∀ (enrich : EnrichFn) (moveMd : Bool) (dirs : List (List Char))
        (st : RState) (fm : List (List Char × List Char))
        (relT mdRel tf : List Char),
      lookupFm fm (normZipPath (normpath (joinTwo (osDirname mdRel) relT))) =
        some tf →
      (mapPath enrich moveMd dirs st fm relT mdRel).2 = st) ∧
    (∀ (normP : List Char → List Char) (ex : List Char → List (List Char))
        (st : RState) (parent fname : List Char),
      (reserve normP ex (reserve normP ex st parent fname).2 parent fname).1 ≠
        (reserve normP ex st parent fname).1) := by
  constructor
  · intro enrich moveMd dirs st fm relT mdRel tf ht
    unfold mapPath mapTargetFinal
    simp only [ht]
  · exact reserve_repeat_ne

/-- C3 witness: the state-preservation part applied at a concrete present
target. -/
theorem claim3_witness :
    lookupFm [(cs "b", cs "c")]
        (normZipPath (normpath (joinTwo (osDirname (cs "f.md")) (cs "b")))) =
      some (cs "c") ∧
    (mapPath offlineEnrich true [] emptyReg [(cs "b", cs "c")] (cs "b")
      (cs "f.md")).2 = emptyReg :=
  ⟨by decide, claim3_absent_target_not_stable.1 offlineEnrich true [] emptyReg
    [(cs "b", cs "c")] (cs "b") (cs "f.md") (cs "c") (by decide)⟩

set_option maxRecDepth 1000000 in
/-- C3 counterexample: with `f.md` mapped to itself and its name reserved,
two successive resolutions of the same unenumerated target `g.png` return
`g.png` and then `g (1).png` — not the same final path, refuting the claim
that every reference to an unenumerated target resolves identically. -/
theorem claim3_counterexample :
    (mapPath offlineEnrich true [] [([], [cs "f.md"])]
        [(cs "f.md", cs "f.md")] (cs "g.png") (cs "f.md")).1 = cs "g.png" ∧
    (mapPath offlineEnrich true []
        (mapPath offlineEnrich true [] [([], [cs "f.md"])]
          [(cs "f.md", cs "f.md")] (cs "g.png") (cs "f.md")).2
        [(cs "f.md", cs "f.md")] (cs "g.png") (cs "f.md")).1 =
      cs "g (1).png" ∧
    cs "g.png" ≠ cs "g (1).png" := by decide

/-- C4 (amended): a reservation whose proposed name is not yet claimed in
the parent's registry (nor blocked by the destination oracle) keeps the
bare name; otherwise — including when the bare name was already taken as an
earlier entry's collision-suffixed assignment, in which case even the first
entry proposing the pair does not keep it — the assigned name is
`"<stem> (k)<ext>"` for the smallest positive `k` whose candidate is
neither claimed nor blocked.  Determinism across runs is immediate because
`reserve` is a pure function of the registry and its arguments. -/
theorem claim4_reserve_minimal (normP : List Char → List Char)
    (ex : List Char → List (List Char)) (st : RState)
    (parent fname : List Char) :
    (fname ∉ regGet st (normP parent) ∧ fname ∉ ex (normP parent) →
      (reserve normP ex st parent fname).1 = fname) ∧
    (fname ∈ regGet st (normP parent) ∨ fname ∈ ex (normP parent) →
      ∃ k, 1 ≤ k ∧
        (reserve normP ex st parent fname).1 =
          candName (splitext fname).1 (splitext fname).2 k ∧
        candName (splitext fname).1 (splitext fname).2 k ∉
          regGet st (normP parent) ∧
        candName (splitext fname).1 (splitext fname).2 k ∉
          ex (normP parent) ∧
        ∀ j, 1 ≤ j → j < k →
          (candName (splitext fname).1 (splitext fname).2 j ∈
              regGet st (normP parent) ∨
            candName (splitext fname).1 (splitext fname).2 j ∈
              ex (normP parent))) := by
  constructor
  · intro h
    rw [reserve_pos normP ex st parent fname h]
  · intro h
    have hneg : ¬ (fname ∉ regGet st (normP parent) ∧
        fname ∉ ex (normP parent)) := by
      rcases h with h | h
      · exact fun hc => hc.1 h
      · exact fun hc => hc.2 h
    rw [reserve_neg normP ex st parent fname hneg]
    obtain ⟨k, hk1, hk2, hk3, hk4, hk5⟩ :=
      findFree_std (regGet st (normP parent)) (ex (normP parent))
        (splitext fname).1 (splitext fname).2
    exact ⟨k, hk1, hk2, hk3, hk4, hk5⟩

/-- C4 witness: with `Notes.md` already reserved, the theorem's collision
branch applies and yields a minimal suffixed candidate. -/
theorem claim4_witness :
    (cs "Notes.md" ∈
        regGet [([], [cs "Notes.md"])] (zipParentNorm []) ∨
      cs "Notes.md" ∈ noExisting (zipParentNorm [])) ∧
    ∃ k, 1 ≤ k ∧
      (reserve zipParentNorm noExisting [([], [cs "Notes.md"])] []
        (cs "Notes.md")).1 =
        candName (splitext (cs "Notes.md")).1 (splitext (cs "Notes.md")).2 k ∧
      candName (splitext (cs "Notes.md")).1 (splitext (cs "Notes.md")).2 k ∉
        regGet [([], [cs "Notes.md"])] (zipParentNorm []) ∧
      candName (splitext (cs "Notes.md")).1 (splitext (cs "Notes.md")).2 k ∉
        noExisting (zipParentNorm []) ∧
      ∀ j, 1 ≤ j → j < k →
        (candName (splitext (cs "Notes.md")).1 (splitext (cs "Notes.md")).2 j ∈
            regGet [([], [cs "Notes.md"])] (zipParentNorm []) ∨
          candName (splitext (cs "Notes.md")).1 (splitext (cs "Notes.md")).2 j ∈
            noExisting (zipParentNorm [])) :=
  ⟨by decide,
    (claim4_reserve_minimal zipParentNorm noExisting [([], [cs "Notes.md"])] []
      (cs "Notes.md")).2 (by decide)⟩

set_option maxRecDepth 1000000 in
/-- C4 counterexample: with proposals `a.md`, `a.md`, `a (1).md` in one
parent (in enumeration order), the third entry is the *first* to propose
the pair `("", "a (1).md")`, yet it is assigned `a (1) (1).md` because an
earlier collision assignment already claimed that name — refuting the claim
that the first entry proposing a pair always keeps the bare name.  (Scenario
B behaviour, `Notes.md` then `Notes (1).md`, is visible in the first two
outputs.) -/
theorem claim4_counterexample :
    ((resolveAll zipParentNorm noExisting emptyReg
        [(cs "1", cs "a.md"), (cs "2", cs "a.md"),
          (cs "3", cs "a (1).md")]).1).map (fun e => e.2.2) =
      [cs "a.md", cs "a (1).md", cs "a (1) (1).md"] ∧
    cs "a (1) (1).md" ≠ cs "a (1).md" := by decide

/-- C6 (amended): sanitization replaces each of the characters
`\ / : * ? " < > |` with a single space and trims the ends, but the
200-character truncation is applied *before* whitespace collapsing (so the
length test sees the un-collapsed string); the result never exceeds 200
characters, and whenever the trimmed replacement does not exceed 200
characters the outcome coincides with the claimed order. -/
theorem claim6_sanitize_order (name : List Char) :
    sanitizeName name =
      collapseWs (truncate200 (stripWs (replaceInvalid name))) ∧
    (sanitizeName name).length ≤ 200 ∧
    ((stripWs (replaceInvalid name)).length ≤ 200 →
      sanitizeName name = collapseWs (stripWs (replaceInvalid name))) :=
  ⟨rfl, sanitizeName_length_le name, fun h => sanitizeName_eq_of_short h⟩

/-- C6 witness: the short-input agreement discharged on a concrete name. -/
theorem claim6_witness :
    (stripWs (replaceInvalid (cs "a:b  c"))).length ≤ 200 ∧
    sanitizeName (cs "a:b  c") =
      collapseWs (stripWs (replaceInvalid (cs "a:b  c"))) :=
  ⟨by decide, (claim6_sanitize_order (cs "a:b  c")).2.2 (by decide)⟩

set_option maxRecDepth 1000000 in
/-- C6 counterexample: on `"a" ++ 250 spaces ++ "b"` the code truncates to
200 characters before collapsing, producing `"a "` (the `b` is cut off and
a trailing space survives), while the claimed order — collapse first, then
test against 200 — would produce `"a b"`. -/
theorem claim6_counterexample :
    sanitizeName ('a' :: (List.replicate 250 ' ' ++ ['b'])) = cs "a " ∧
    truncate200 (collapseWs (stripWs (replaceInvalid
        ('a' :: (List.replicate 250 ' ' ++ ['b']))))) = cs "a b" ∧
    cs "a " ≠ cs "a b" := by decide

/-- C7: a markdown entry whose bytes do not decode as UTF-8 makes the
directory-source pipelines raise `UnicodeDecodeError` out of the pass (the
`open(..., encoding="utf-8").read()` has no handler), aborting the run,
while the archive-to-archive pipeline copies the bytes through raw — so the
claimed never-abort behaviour fails exactly in the directory-source
markdown case the claim includes. -/
theorem claim7_md_decode_failure_raises :
    treeToZipEntry id id 0 (cs "a.md") 5 EntryData.nonUtf8 none true =
      Except.error PyErr.unicodeDecodeError ∧
    treeToDirEntry id id 0 (cs "a.md") 5 EntryData.nonUtf8 none true =
      Except.error PyErr.unicodeDecodeError ∧
    zipToZipEntry id id 0 (cs "a.md") 5 EntryData.nonUtf8 none true =
      EntryOut.raw 0 := by
  refine ⟨?_, ?_, ?_⟩ <;> rfl

/-- C8 (amended): entries rewritten as text (markdown and csv that decode)
are stamped with the enrichment override when present and otherwise with the
generation-time default — the source timestamp is not consulted — while
entries copied verbatim are stamped with the source timestamp and ignore
the enrichment override; the archive-to-archive markdown decode-failure
fallback is stamped like a text entry. -/
theorem claim8_write_timestamps (mdFn csvFn : List Char → List Char)
    (now srcTs : Nat) (s : List Char) (mt : Option Nat) :
    treeToZipEntry mdFn csvFn now (cs "x.md") srcTs (EntryData.utf8Text s) mt
        true = Except.ok (EntryOut.text (mdFn s) (mt.getD now)) ∧
    treeToZipEntry mdFn csvFn now (cs "x.csv") srcTs (EntryData.utf8Text s) mt
        true = Except.ok (EntryOut.text (csvFn s) (mt.getD now)) ∧
    treeToZipEntry mdFn csvFn now (cs "x.png") srcTs (EntryData.utf8Text s) mt
        true = Except.ok (EntryOut.raw srcTs) ∧
    treeToZipEntry mdFn csvFn now (cs "x.csv") srcTs EntryData.nonUtf8 mt
        true = Except.ok (EntryOut.raw srcTs) ∧
    treeToDirEntry mdFn csvFn now (cs "x.md") srcTs (EntryData.utf8Text s) mt
        true = Except.ok (EntryOut.text (mdFn s) (mt.getD now)) ∧
    treeToDirEntry mdFn csvFn now (cs "x.png") srcTs (EntryData.utf8Text s) mt
        true = Except.ok (EntryOut.raw srcTs) ∧
    zipToZipEntry mdFn csvFn now (cs "x.md") srcTs (EntryData.utf8Text s) mt
        true = EntryOut.text (mdFn s) (mt.getD now) ∧
    zipToZipEntry mdFn csvFn now (cs "x.md") srcTs EntryData.nonUtf8 mt
        true = EntryOut.raw (mt.getD now) ∧
    zipToZipEntry mdFn csvFn now (cs "x.png") srcTs (EntryData.utf8Text s) mt
        true = EntryOut.raw srcTs := by
  refine ⟨?_, ?_, ?_, ?_, ?_, ?_, ?_, ?_, ?_⟩ <;> rfl

/-- C8 counterexample: a verbatim (non-text) entry with an enrichment
override present and a source timestamp is written with the source
timestamp, not with the claimed resolved timestamp (the override). -/
theorem claim8_counterexample :
    treeToZipEntry id id 7 (cs "x.png") 3 (EntryData.utf8Text []) (some 5)
        true = Except.ok (EntryOut.raw 3) ∧
    claimedTs (some 5) (some 3) 7 = 5 ∧
    tsOf (EntryOut.raw 3) ≠ claimedTs (some 5) (some 3) 7 := by
  refine ⟨rfl, rfl, ?_⟩
  decide

/-- Scenario A fixtures: directory `Page <32 zeros>` with child
`Child <32 ones>.md`, sibling file `Page <32 zeros>.md`, enumerated in tree
walk order. -/
def scenAPage : List Char := cs "Page " ++ List.replicate 32 '0'

def scenAPageMd : List Char := cs "Page " ++ List.replicate 32 '0' ++ cs ".md"

def scenAChildMd : List Char :=
  cs "Page " ++ List.replicate 32 '0' ++ cs "/Child " ++
    List.replicate 32 '1' ++ cs ".md"

def scenAContent : List Char :=
  cs "[link](../Page " ++ List.replicate 32 '0' ++ cs ".md)"

set_option maxRecDepth 1000000 in
/-- C2: evaluating the pipeline on Scenario A (folder-move enabled, no
enrichment) shows the code writes a *top-level* file `Page !index.md` — the
relocation rule's path separator is immediately replaced by a space by
`_sanitize_name` — instead of the claimed `Page/!index.md`, and the child's
content is returned byte-for-byte unchanged (the literal-space link target
never matches the link pattern), so it does not reference `!index.md`.
This contradicts the code's own documentation ("Move root md into folder as
!index.md"), hence the claim is recorded as a code bug and this theorem
evaluates the code at the failing input. -/
theorem claim2_scenario_a_eval :
    twoPassFinalMap offlineEnrich true [scenAPage] [scenAPageMd, scenAChildMd] =
      [(scenAPageMd, cs "Page !index.md"),
        (scenAChildMd, cs "Page/Child.md")] ∧
    (twoPassRewriteMd offlineEnrich true [scenAPage] [scenAPageMd, scenAChildMd]
        false true scenAChildMd scenAContent).1 = scenAContent ∧
    cs "Page !index.md" ≠ cs "Page/!index.md" := by decide

/-- C5 (amended): the trailing identifier is stripped exactly when the
base-name decomposes as any prefix, then a non-empty newline-free text, one
whitespace character (not only a plain space), 32 case-insensitive hex
digits, and at most one final newline; a base-name with no such match,
renamed with no enrichment provider and not hit by the markdown folder-move
relocation, maps to itself modulo sanitization only, while a matching one
keeps the sanitized matched text. -/
theorem claim5_id_strip_characterization :
    (∀ name : List Char, (idSearch name).isSome = true ↔ IdDecomp name) ∧
    (∀ (moveMd : Bool) (dirs : List (List Char)) (p t : List Char),
      idSearch (splitext (osSplit p).2).1 = some t →
      ¬ mdMoveApplies moveMd dirs p →
      (rewriteSingleBasename offlineEnrich moveMd dirs p).newName =
        sanitizeName t ++ (splitext (osSplit p).2).2) ∧
    (∀ (moveMd : Bool) (dirs : List (List Char)) (p : List Char),
      idSearch (splitext (osSplit p).2).1 = none →
      ¬ mdMoveApplies moveMd dirs p →
      (rewriteSingleBasename offlineEnrich moveMd dirs p).newName =
        sanitizeName (splitext (osSplit p).2).1 ++
          (splitext (osSplit p).2).2) := by
  refine ⟨idSearch_isSome_iff, ?_, ?_⟩
  · intro moveMd dirs p t h1 h2
    rw [rewriteSingle_strip h1 h2]
  · intro moveMd dirs p h1 h2
    rw [rewriteSingle_no_strip h1 h2]

/-- C5 witness: the identity part discharged on a concrete suffix-free
name. -/
theorem claim5_witness :
    idSearch (splitext (osSplit (cs "Readme.txt")).2).1 = none ∧
    ¬ mdMoveApplies false [] (cs "Readme.txt") ∧
    (rewriteSingleBasename offlineEnrich false [] (cs "Readme.txt")).newName =
      sanitizeName (splitext (osSplit (cs "Readme.txt")).2).1 ++
        (splitext (osSplit (cs "Readme.txt")).2).2 :=
  ⟨by decide, by decide,
    claim5_id_strip_characterization.2.2 false [] (cs "Readme.txt")
      (by decide) (by decide)⟩

set_option maxRecDepth 1000000 in
/-- C5 counterexample: the name `A<TAB><32 hex zeros>` contains no space at
all, so under the claim ("separator is a single space character") it would
map to itself after sanitization (which leaves it unchanged); the code
nevertheless strips it to `A` because `\s` accepts the tab. -/
theorem claim5_counterexample :
    (∀ c ∈ cs "A\t" ++ List.replicate 32 '0', c ≠ ' ') ∧
    (rewriteSingleBasename offlineEnrich false []
        (cs "A\t" ++ List.replicate 32 '0')).newName = cs "A" ∧
    sanitizeName (cs "A\t" ++ List.replicate 32 '0') =
      cs "A\t" ++ List.replicate 32 '0' ∧
    cs "A" ≠ cs "A\t" ++ List.replicate 32 '0' := by decide

/-- C9: for a markdown file whose mapping is present and a single
well-formed relative link `[l](u)` whose percent-decoded target resolves to
a path present in FinalMapping, the rewriter splices exactly the
percent-encoded relative path from the file's final directory to the
target's final path as given by direct FinalMapping lookups, normalized to
forward slashes, leaving the registry untouched. -/
theorem claim9_rewrite_resolve_consistency (enrich : EnrichFn)
    (moveMd : Bool) (dirs : List (List Char)) (st : RState)
    (fm : List (List Char × List Char)) (mdRel l u tFinal mFinal : List Char)
    (hne : l ≠ []) (h2 : ']' ∉ l) (h3 : '\n' ∉ l)
    (hu : u ≠ []) (huc : ∀ c ∈ u, linkChar c = true) (h6 : ')' ∉ u)
    (hcs : hasColonSlash u = false)
    (ht : lookupFm fm (normZipPath (normpath (joinTwo (osDirname mdRel)
      (unquoteA u)))) = some tFinal)
    (hm : lookupFm fm mdRel = some mFinal) :
    rewriteMdText enrich moveMd dirs st fm false true mdRel
        ('[' :: (l ++ ']' :: '(' :: (u ++ [')']))) =
      ('[' :: (l ++ ']' :: '(' ::
          (quoteA (backslashToSlash (normBackslashRuns
            (relpath (normZipPath tFinal)
              (dirOrDot (osDirname (normZipPath mFinal)))))) ++ [')'])),
        st) := by
  unfold rewriteMdText
  simp only [Bool.false_eq_true, if_false, if_true]
  rw [rewriteLinksAux_single
    (fun s t => mapPath enrich moveMd dirs s fm t mdRel) st hne h2 h3 hu huc
    h6 hcs]
  rw [mapPath_present ht hm]

/-- C9 witness: the consistency instance on a concrete one-link file. -/
theorem claim9_witness :
    lookupFm [(cs "f.md", cs "f.md"), (cs "b", cs "c")]
        (normZipPath (normpath (joinTwo (osDirname (cs "f.md"))
          (unquoteA (cs "b"))))) = some (cs "c") ∧
    lookupFm [(cs "f.md", cs "f.md"), (cs "b", cs "c")] (cs "f.md") =
      some (cs "f.md") ∧
    rewriteMdText offlineEnrich true [] emptyReg
        [(cs "f.md", cs "f.md"), (cs "b", cs "c")] false true (cs "f.md")
        ('[' :: (cs "x" ++ ']' :: '(' :: (cs "b" ++ [')']))) =
      ('[' :: (cs "x" ++ ']' :: '(' ::
          (quoteA (backslashToSlash (normBackslashRuns
            (relpath (normZipPath (cs "c"))
              (dirOrDot (osDirname (normZipPath (cs "f.md"))))))) ++ [')'])),
        emptyReg) :=
  ⟨by decide, by decide,
    claim9_rewrite_resolve_consistency offlineEnrich true [] emptyReg
      [(cs "f.md", cs "f.md"), (cs "b", cs "c")] (cs "f.md") (cs "x") (cs "b")
      (cs "c") (cs "f.md") (by decide) (by decide) (by decide) (by decide)
      (by decide) (by decide) (by decide) (by decide) (by decide)⟩

/-- C10 (amended): a lone link whose bracket structure is unambiguous (no
`[` or `]` or newline in the label, no `[`, `]` or `)` in the target) and
whose label is empty or whose target contains an ASCII character outside
the URL class — a literal space in particular — is never matched by the
link pattern, and the rewriter leaves the content byte-for-byte unchanged
with the registry untouched.  The out-of-class witness must be ASCII
because the pattern's `\w` (compiled without `re.ASCII`) also accepts
non-ASCII word characters; on ASCII characters `linkChar` is exactly the
real class.  (Without the bracket guards the claim fails, see the
counterexample.) -/
theorem claim10_unmatched_link_unchanged (enrich : EnrichFn) (moveMd : Bool)
    (dirs : List (List Char)) (st : RState)
    (fm : List (List Char × List Char)) (mdRel l u : List Char)
    (h1 : '[' ∉ l) (h2 : ']' ∉ l) (h3 : '\n' ∉ l)
    (h4 : '[' ∉ u) (h5 : ']' ∉ u) (h6 : ')' ∉ u)
    (hdisj : l = [] ∨ ∃ c ∈ u, c.toNat < 128 ∧ linkChar c = false) :
    rewriteMdText enrich moveMd dirs st fm false true mdRel
        ('[' :: (l ++ ']' :: '(' :: (u ++ [')']))) =
      ('[' :: (l ++ ']' :: '(' :: (u ++ [')'])), st) := by
  have hdisj' : l = [] ∨ ∃ c ∈ u, linkChar c = false := by
    rcases hdisj with h | ⟨c, hc, _, hb⟩
    · exact Or.inl h
    · exact Or.inr ⟨c, hc, hb⟩
  unfold rewriteMdText
  simp only [Bool.false_eq_true, if_false, if_true]
  exact rewriteLinksAux_stop _ _ _ _ _
    (searchFrom_guarded_none h1 h2 h3 h4 h5 h6 hdisj')

/-- C10 witness: a target bearing a literal (ASCII) space with unambiguous
brackets is left unchanged. -/
theorem claim10_witness :
    ('[' ∉ cs "lab") ∧ (']' ∉ cs "lab") ∧ ('\n' ∉ cs "lab") ∧
    ('[' ∉ cs "a b") ∧ (']' ∉ cs "a b") ∧ (')' ∉ cs "a b") ∧
    (cs "lab" = [] ∨ ∃ c ∈ cs "a b", c.toNat < 128 ∧ linkChar c = false) ∧
    rewriteMdText offlineEnrich true [] emptyReg [] false true (cs "f.md")
        ('[' :: (cs "lab" ++ ']' :: '(' :: (cs "a b" ++ [')']))) =
      ('[' :: (cs "lab" ++ ']' :: '(' :: (cs "a b" ++ [')'])), emptyReg) :=
  ⟨by decide, by decide, by decide, by decide, by decide, by decide,
    by decide,
    claim10_unmatched_link_unchanged offlineEnrich true [] emptyReg []
      (cs "f.md") (cs "lab") (cs "a b") (by decide) (by decide) (by decide)
      (by decide) (by decide) (by decide) (by decide)⟩

set_option maxRecDepth 1000000 in
/-- C10 counterexample: the content `[](a](b))` is a link with an empty
bracketed label (label `""`, target `a](b)`), yet the pattern re-parses it
(label `](a`, target `b`) and the rewriter changes the content — refuting
the unguarded claim that such a link is always left byte-for-byte
unchanged. -/
theorem claim10_counterexample :
    cs "[](a](b))" = '[' :: ([] ++ ']' :: '(' :: (cs "a](b)" ++ [')'])) ∧
    (rewriteMdText offlineEnrich true [] emptyReg
        [(cs "f.md", cs "f.md"), (cs "b", cs "c")] false true (cs "f.md")
        (cs "[](a](b))")).1 = cs "[](a](c))" ∧
    cs "[](a](c))" ≠ cs "[](a](b))" := by decide

end ExportFix
